import Mathlib

/-!
Verification development for the `rag-whatsapp` repository.

The TypeScript sources are shallowly embedded as executable Lean functions:
  * strings are `List Char`; JavaScript numbers holding scores are exact
    rationals (`ℚ`); timestamps (`Date.getTime()` values) are integers of
    milliseconds since the Unix epoch;
  * `Array.prototype.sort` (stable since ES2019) is `List.insertionSort`,
    which is stable for the comparator order;
  * the locale-independent parts of `Date` (component normalization,
    `getFullYear`, `toISOString`) are embedded through proleptic-Gregorian
    civil-calendar arithmetic; the time zone offset cancels in every use the
    code makes of them (the code builds a `Date` from components and reads
    components back), so the embedding works in UTC;
  * asynchronous external capabilities (embedding provider, LLM, vector
    store) are parameters of the embedded functions; their fallibility is
    `Except String`.

Randomly generated identifiers (`randomUUID`, `nanoid`) are omitted: no
claim mentions them and no control flow depends on them.
-/

namespace RagWhatsApp

/-- Characters of a JavaScript string. -/
abbrev Str := List Char

/-- Whitespace as used by the embedded `\s` character class and `trim` for
the inputs in scope (lines are already split on newlines). -/
def isWs (c : Char) : Bool := c = ' ' ∨ c = '\t' ∨ c = '\r' ∨ c = '\n'

/-- JavaScript `String.prototype.trim`. -/
def trimStr (s : Str) : Str :=
  ((s.dropWhile isWs).reverse.dropWhile isWs).reverse

/-- ASCII lower-casing, the fragment of `String.prototype.toLowerCase`
relevant to the embedded pattern tables (all of which are ASCII except for
pre-lowercased accented letters). -/
def lowerChar (c : Char) : Char :=
  if 'A' ≤ c ∧ c ≤ 'Z' then Char.ofNat (c.toNat + 32) else c

/-- Lower-case a whole string. -/
def lowerStr (s : Str) : Str := s.map lowerChar

/-- Decimal digit character for `n % 10`. -/
def digitChar (n : Nat) : Char :=
  match n % 10 with
  | 0 => '0' | 1 => '1' | 2 => '2' | 3 => '3' | 4 => '4'
  | 5 => '5' | 6 => '6' | 7 => '7' | 8 => '8' | _ => '9'

/-- Decimal digits of a natural number, most significant first. -/
def natDigits (n : Nat) : Str :=
  if h : n < 10 then [digitChar n]
  else natDigits (n / 10) ++ [digitChar (n % 10)]
  termination_by n
  decreasing_by
    exact Nat.div_lt_self (Nat.lt_of_lt_of_le (by omega) (Nat.le_of_not_lt h)) (by omega)

/-- Zero-pad a decimal rendering to width `w` (as `String.padStart(w, "0")`). -/
def padNum (w n : Nat) : Str :=
  List.replicate (w - (natDigits n).length) '0' ++ natDigits n

/-- Value of a string of decimal digits (as `parseInt(s, 10)` on an
all-digit string). -/
def digitsToNat (s : Str) : Nat :=
  s.foldl (fun n c => 10 * n + (c.toNat - 48)) 0

/-- Occurrence of `needle` as a contiguous substring of `hay`
(`String.prototype.includes`). -/
def containsSub (needle hay : Str) : Bool :=
  hay.tails.any (fun t => needle.isPrefixOf t)

end RagWhatsApp

namespace RagWhatsApp

/-!
Proleptic-Gregorian civil-calendar arithmetic, used to embed the
locale-independent `Date` operations of the sources: component
normalization in the `Date` constructor, `getFullYear`, and
`toISOString().slice(0, 16)`.  `fdiv` is floor division, matching the
floor-based normalization JavaScript performs.
-/

/-- Days from the epoch 1970-01-01 of the civil date `y-m-d` (month
`1..12`; `d` may be out of range, extra days carry over, matching the
`Date` constructor's day normalization). -/
def daysFromCivil (y m d : Int) : Int :=
  let y1 := if m ≤ 2 then y - 1 else y
  let era := Int.fdiv y1 400
  let yoe := y1 - era * 400
  let mp := Int.emod (m + 9) 12
  let doy := Int.fdiv (153 * mp + 2) 5 + d - 1
  let doe := yoe * 365 + Int.fdiv yoe 4 - Int.fdiv yoe 100 + doy
  era * 146097 + doe - 719468

/-- Civil date `(year, month, day)` of a day count from the epoch. -/
def civilFromDays (z0 : Int) : Int × Int × Int :=
  let z := z0 + 719468
  let era := Int.fdiv z 146097
  let doe := z - era * 146097
  let yoe := Int.fdiv (doe - Int.fdiv doe 1460 + Int.fdiv doe 36524 - Int.fdiv doe 146096) 365
  let y := yoe + era * 400
  let doy := doe - (365 * yoe + Int.fdiv yoe 4 - Int.fdiv yoe 100)
  let mp := Int.fdiv (5 * doy + 2) 153
  let d := doy - Int.fdiv (153 * mp + 2) 5 + 1
  let m := mp + (if mp < 10 then 3 else -9)
  (if m ≤ 2 then y + 1 else y, m, d)

/-- Epoch milliseconds of `new Date(y, monthIndex, d, h, mi, s)`:
months and all smaller components are normalized with carries, exactly as
the `Date` constructor does.  The time zone offset is dropped; it cancels
against `getFullYear`/component reads in every use the sources make. -/
def mkDateMs (y monthIndex d h mi s : Int) : Int :=
  let yAdj := y + Int.fdiv monthIndex 12
  let mIdx := Int.emod monthIndex 12
  let days := daysFromCivil yAdj (mIdx + 1) 1 + (d - 1)
  ((days * 24 + h) * 60 + mi) * 60000 + s * 1000

/-- `Date.prototype.getFullYear` of an epoch-millisecond value. -/
def msFullYear (ms : Int) : Int :=
  (civilFromDays (Int.fdiv ms 86400000)).1

/-- `toISOString().slice(0, 16).replace("T", " ")` of an epoch-millisecond
value: the string `YYYY-MM-DD HH:MM`. -/
def isoSlice16 (ms : Int) : Str :=
  let days := Int.fdiv ms 86400000
  let rem := (ms - days * 86400000).toNat
  let c := civilFromDays days
  padNum 4 c.1.toNat ++ ['-'] ++ padNum 2 c.2.1.toNat ++ ['-'] ++ padNum 2 c.2.2.toNat
    ++ [' '] ++ padNum 2 (rem / 3600000) ++ [':'] ++ padNum 2 (rem % 3600000 / 60000)

/-!
Data model of `src/core/parser/types.ts`.
-/

/-- `MessageType` of `src/core/parser/types.ts`. -/
inductive MessageType where
  | text | media | system | deleted
  deriving DecidableEq, Repr

/-- The `mediaType` variants of `ParsedMessage`. -/
inductive MediaKind where
  | image | video | audio | document | sticker | location | contact | media
  deriving DecidableEq, Repr

/-- `ParsedMessage` of `src/core/parser/types.ts`.  `timestamp` is the
`Date.getTime()` value in epoch milliseconds; the random `id` is omitted
(nothing reads it). -/
structure ParsedMessage where
  ts : Int
  sender : Str
  content : Str
  mtype : MessageType
  mediaType : Option MediaKind := none
  rawLine : Str := []
  deriving DecidableEq, Repr

/-!
Embedding of the temporal chunker (`src/core/chunker/chunker.ts`).
-/

/-- `ChunkerOptions` with the `DEFAULT_OPTIONS` of the chunker as defaults.
`conversationId` (a randomly generated identifier) is omitted: no control
flow depends on it. -/
structure ChunkerOptions where
  gapMinutes : Nat := 30
  maxMessages : Nat := 50
  minMessages : Nat := 3
  maxChunkChars : Nat := 4000
  deriving DecidableEq, Repr

/-- A `Chunk` as the chunker builds it.  The derived metadata fields
(`participants`, `dominantParticipant`, `hasMedia`, `mediaCount`,
`timeSpanMinutes`, random `id`) are pure functions of `messages` that no
claim in scope mentions, so the embedding keeps the message sequence,
which determines them. -/
structure Chunk where
  messages : List ParsedMessage
  deriving DecidableEq, Repr

/-- `chunk.metadata.messageCount`, set by `createChunk` to the length of
the chunk's message list. -/
def Chunk.messageCount (c : Chunk) : Nat := c.messages.length

/-- `createChunk` (metadata projected away, see `Chunk`). -/
def createChunk (messages : List ParsedMessage) : Chunk := ⟨messages⟩

/-- `getMessageCharCount`: 25 characters of formatting overhead plus
sender and content lengths. -/
def getMessageCharCount (m : ParsedMessage) : Nat :=
  25 + m.sender.length + m.content.length

/-- `getMessagesCharCount`: total character cost of a message list. -/
def getMessagesCharCount (messages : List ParsedMessage) : Nat :=
  (messages.map getMessageCharCount).sum

/-- `shouldStartNewChunk`.  The gap test `gapMs / 60000 >= gapMinutes` is
embedded as the exact comparison `gapMs ≥ gapMinutes * 60000`, which is
equivalent for integer millisecond timestamps. -/
def shouldStartNewChunk (current : ParsedMessage) (previous : Option ParsedMessage)
    (currentChunkSize currentChunkChars newMessageChars : Nat)
    (options : ChunkerOptions) : Bool :=
  if currentChunkChars + newMessageChars > options.maxChunkChars then true
  else if currentChunkSize ≥ options.maxMessages then true
  else
    match previous with
    | none => false
    | some prev => current.ts - prev.ts ≥ (options.gapMinutes : Int) * 60000

/-- State of the greedy partition loop of `chunkMessages`: emitted chunks,
the open chunk, and its accumulated character cost. -/
structure GreedyState where
  chunks : List Chunk
  cur : List ParsedMessage
  curChars : Nat
  deriving Repr

/-- One iteration of the greedy partition loop of `chunkMessages`. -/
def greedyStep (options : ChunkerOptions) (s : GreedyState) (message : ParsedMessage) :
    GreedyState :=
  let messageChars := getMessageCharCount message
  let shouldSplit :=
    shouldStartNewChunk message s.cur.getLast? s.cur.length s.curChars messageChars options
  if shouldSplit ∧ s.cur ≠ [] then
    ⟨s.chunks ++ [createChunk s.cur], [message], messageChars⟩
  else
    ⟨s.chunks, s.cur ++ [message], s.curChars + messageChars⟩

/-- The greedy partition of `chunkMessages` (the `for` loop plus the final
flush of the open chunk), on messages already sorted by timestamp. -/
def greedyPartition (options : ChunkerOptions) (sortedMessages : List ParsedMessage) :
    List Chunk :=
  let s := sortedMessages.foldl (greedyStep options) ⟨[], [], 0⟩
  if s.cur = [] then s.chunks else s.chunks ++ [createChunk s.cur]

/-- State of the merge loop of `mergeSmallChunks`. -/
structure MergeState where
  result : List Chunk
  pending : List ParsedMessage
  pendingChars : Nat
  deriving Repr

/-- One iteration of the `for` loop of `mergeSmallChunks`. -/
def mergeStep (minMessages maxChunkChars : Nat) (s : MergeState) (chunk : Chunk) :
    MergeState :=
  let chunkChars := getMessagesCharCount chunk.messages
  if chunk.messages.length ≥ minMessages then
    if s.pending ≠ [] then
      if s.pending.length < minMessages ∧ s.pendingChars + chunkChars ≤ maxChunkChars then
        ⟨s.result ++ [createChunk (s.pending ++ chunk.messages)], [], 0⟩
      else
        ⟨s.result ++ [createChunk s.pending, chunk], [], 0⟩
    else
      ⟨s.result ++ [chunk], [], 0⟩
  else
    let s1 : MergeState :=
      if s.pendingChars + chunkChars > maxChunkChars ∧ s.pending ≠ [] then
        ⟨s.result ++ [createChunk s.pending], [], 0⟩
      else s
    let pending1 := s1.pending ++ chunk.messages
    let pendingChars1 := s1.pendingChars + chunkChars
    if pending1.length ≥ minMessages then
      ⟨s1.result ++ [createChunk pending1], [], 0⟩
    else
      ⟨s1.result, pending1, pendingChars1⟩

/-- The tail of `mergeSmallChunks`: attach a leftover pending run to the
last emitted chunk when the combined character count fits, else emit it
standalone. -/
def mergeFinal (maxChunkChars : Nat) (s : MergeState) : List Chunk :=
  if s.pending = [] then s.result
  else
    match h : s.result.getLast? with
    | none => [createChunk s.pending]
    | some lastChunk =>
      let lastChunkChars := getMessagesCharCount lastChunk.messages
      if lastChunkChars + s.pendingChars ≤ maxChunkChars then
        s.result.dropLast ++ [createChunk (lastChunk.messages ++ s.pending)]
      else
        s.result.dropLast ++ [lastChunk, createChunk s.pending]

/-- `mergeSmallChunks`. -/
def mergeSmallChunks (chunks : List Chunk) (minMessages maxChunkChars : Nat) :
    List Chunk :=
  if chunks.length ≤ 1 then chunks
  else mergeFinal maxChunkChars (chunks.foldl (mergeStep minMessages maxChunkChars) ⟨[], [], 0⟩)

/-- The stable ascending timestamp sort at the top of `chunkMessages`. -/
def sortByTimestamp (messages : List ParsedMessage) : List ParsedMessage :=
  List.insertionSort (fun a b => a.ts ≤ b.ts) messages

/-- `chunkMessages` (its chunk list; the aggregate result metadata is a
pure function of this list and the input length). -/
def chunkMessages (messages : List ParsedMessage) (options : ChunkerOptions) :
    List Chunk :=
  if messages.length = 0 then []
  else
    mergeSmallChunks (greedyPartition options (sortByTimestamp messages))
      options.minMessages options.maxChunkChars

/-- The per-message line of `getChunkText`:
`[YYYY-MM-DD HH:MM] sender: content`. -/
def renderMessage (m : ParsedMessage) : Str :=
  ['['] ++ isoSlice16 m.ts ++ [']', ' '] ++ m.sender ++ [':', ' '] ++ m.content

/-- The filter of `getChunkText`: keep text and media messages. -/
def keepInChunkText (m : ParsedMessage) : Bool :=
  m.mtype = MessageType.text ∨ m.mtype = MessageType.media

/-- `getChunkText`: newline-joined rendering of the chunk's text and media
messages. -/
def getChunkText (c : Chunk) : Str :=
  List.intercalate ['\n'] ((c.messages.filter keepInChunkText).map renderMessage)

/-!
Embedding of the WhatsApp export parser (`src/core/parser/parser.ts` and
its pattern tables in `src/core/parser/types.ts`).  Each `DATE_FORMATS`
regular expression is embedded as a hand-rolled matcher over `Str` with
the same backtracking semantics (established case by case in the
matchers' comments).
-/

/-- The keys of `DATE_FORMATS`, in object insertion order. -/
inductive DateFormat where
  | US | EU | ISO | DE | BR
  deriving DecidableEq, Repr

/-- `Object.keys(DATE_FORMATS)`. -/
def dateFormatKeys : List DateFormat := [.US, .EU, .ISO, .DE, .BR]

/-- The numeric capture groups of a `DATE_FORMATS` match plus the
remainder of the line after `match[0]`.  `g6` is the optional seconds
group, `ampm` the US AM/PM group (`true` = PM). -/
structure DateMatch where
  g1 : Nat
  g2 : Nat
  g3 : Nat
  g4 : Nat
  g5 : Nat
  g6 : Option Nat := none
  ampm : Option Bool := none
  rest : Str := []
  deriving DecidableEq, Repr

/-- Greedy `(\d{m..n})` followed by a non-digit delimiter: the whole
leading digit run must have length in `[m, n]` (a shorter parse always
fails on the following delimiter because the next character is a digit). -/
def numRun (lo hi : Nat) (s : Str) : Option (Nat × Str) :=
  let ds := s.takeWhile Char.isDigit
  if lo ≤ ds.length ∧ ds.length ≤ hi then some (digitsToNat ds, s.drop ds.length)
  else none

/-- `(\d{k})` with nothing forcing the run to end: exactly `k` leading
digits. -/
def exactDigits (k : Nat) (s : Str) : Option (Nat × Str) :=
  let pre := s.take k
  if pre.length = k ∧ pre.all Char.isDigit then some (digitsToNat pre, s.drop k)
  else none

/-- A single literal character. -/
def expectChar (c : Char) (s : Str) : Option Str :=
  match s with
  | c2 :: r => if c2 = c then some r else none
  | [] => none

/-- `,?\s+` (and plain `\s+` when `allowComma` is false): an optional
comma must be followed by whitespace, so no backtracking arises. -/
def commaWs (allowComma : Bool) (s : Str) : Option Str :=
  let s1 := match s with
    | ',' :: r => if allowComma then r else s
    | _ => s
  let r := s1.dropWhile isWs
  if r.length < s1.length then some r else none

/-- The optional seconds group `(?::(\d{2}))?` in its committed form:
`some` only when `:` and two digits are present. -/
def secondsGroup (s : Str) : Option (Nat × Str) :=
  match s with
  | ':' :: r => (exactDigits 2 r).map (fun p => (p.1, p.2))
  | _ => none

/-- `\s*(AM|PM)` case-insensitively; `true` = PM. -/
def ampmGroup (s : Str) : Option (Bool × Str) :=
  let r := s.dropWhile isWs
  match r with
  | a :: m :: rest =>
    if (a = 'A' ∨ a = 'a') ∧ (m = 'M' ∨ m = 'm') then some (false, rest)
    else if (a = 'P' ∨ a = 'p') ∧ (m = 'M' ∨ m = 'm') then some (true, rest)
    else none
  | _ => none

/-- The negative lookahead `(?!\s*[AP]M)` of the EU pattern,
case-insensitive. -/
def noAmPmAhead (s : Str) : Bool :=
  match s.dropWhile isWs with
  | a :: m :: _ =>
    ¬((a = 'A' ∨ a = 'a' ∨ a = 'P' ∨ a = 'p') ∧ (m = 'M' ∨ m = 'm'))
  | _ => true

/-- Shared date-and-time prefix `(\d{1,2})sep(\d{1,2})sep(\d{2,4}),?\s+(\d{1,2}):(\d{2})`
of the US, EU, DE and BR patterns. -/
def dmyPrefix (sep : Char) (allowComma : Bool) (s : Str) : Option (Nat × Nat × Nat × Nat × Nat × Str) := do
  let (a, s) ← numRun 1 2 s
  let s ← expectChar sep s
  let (b, s) ← numRun 1 2 s
  let s ← expectChar sep s
  let (y, s) ← numRun 2 4 s
  let s ← commaWs allowComma s
  let (h, s) ← numRun 1 2 s
  let s ← expectChar ':' s
  let (mi, s) ← exactDigits 2 s
  pure (a, b, y, h, mi, s)

/-- The US pattern.  The regex backtracks over the optional seconds group
when `\s*(AM|PM)` fails after it, so both alternatives are tried. -/
def matchUS (s : Str) : Option DateMatch := do
  let (mo, d, y, h, mi, s1) ← dmyPrefix '/' true s
  match secondsGroup s1 with
  | some (sec, s2) =>
    match ampmGroup s2 with
    | some (pm, s3) => pure ⟨mo, d, y, h, mi, some sec, some pm, s3⟩
    | none =>
      match ampmGroup s1 with
      | some (pm, s3) => pure ⟨mo, d, y, h, mi, none, some pm, s3⟩
      | none => none
  | none =>
    match ampmGroup s1 with
    | some (pm, s3) => pure ⟨mo, d, y, h, mi, none, some pm, s3⟩
    | none => none

/-- The EU pattern.  The regex backtracks over the optional seconds group
when the negative lookahead fails after it. -/
def matchEU (s : Str) : Option DateMatch := do
  let (d, mo, y, h, mi, s1) ← dmyPrefix '/' true s
  match secondsGroup s1 with
  | some (sec, s2) =>
    if noAmPmAhead s2 then pure ⟨d, mo, y, h, mi, some sec, none, s2⟩
    else if noAmPmAhead s1 then pure ⟨d, mo, y, h, mi, none, none, s1⟩
    else none
  | none =>
    if noAmPmAhead s1 then pure ⟨d, mo, y, h, mi, none, none, s1⟩
    else none

/-- The ISO pattern `(\d{4})-(\d{2})-(\d{2}),?\s+(\d{1,2}):(\d{2})(?::(\d{2}))?`. -/
def matchISO (s : Str) : Option DateMatch := do
  let (y, s) ← exactDigits 4 s
  let s ← expectChar '-' s
  let (mo, s) ← exactDigits 2 s
  let s ← expectChar '-' s
  let (d, s) ← exactDigits 2 s
  let s ← commaWs true s
  let (h, s) ← numRun 1 2 s
  let s ← expectChar ':' s
  let (mi, s1) ← exactDigits 2 s
  match secondsGroup s1 with
  | some (sec, s2) => pure ⟨y, mo, d, h, mi, some sec, none, s2⟩
  | none => pure ⟨y, mo, d, h, mi, none, none, s1⟩

/-- The DE pattern (dot separators). -/
def matchDE (s : Str) : Option DateMatch := do
  let (d, mo, y, h, mi, s1) ← dmyPrefix '.' true s
  match secondsGroup s1 with
  | some (sec, s2) => pure ⟨d, mo, y, h, mi, some sec, none, s2⟩
  | none => pure ⟨d, mo, y, h, mi, none, none, s1⟩

/-- The BR pattern (slash separators, no comma before the time). -/
def matchBR (s : Str) : Option DateMatch := do
  let (d, mo, y, h, mi, s1) ← dmyPrefix '/' false s
  match secondsGroup s1 with
  | some (sec, s2) => pure ⟨d, mo, y, h, mi, some sec, none, s2⟩
  | none => pure ⟨d, mo, y, h, mi, none, none, s1⟩

/-- `line.match(DATE_FORMATS[k])` for each key. -/
def matchFormat : DateFormat → Str → Option DateMatch
  | .US => matchUS
  | .EU => matchEU
  | .ISO => matchISO
  | .DE => matchDE
  | .BR => matchBR

/-- `normalizeYear`. -/
def normalizeYear (year : Nat) : Nat :=
  if year < 100 then (if year ≥ 50 then 1900 + year else 2000 + year)
  else year

/-- The date components `(year, month, day, hour, minute, second)` the
`switch` of `parseDateFromMatch` extracts from a match. -/
def dateComponents (format : DateFormat) (m : DateMatch) : Int × Int × Int × Int × Int × Int :=
  match format with
  | .US =>
    let hour0 : Int := m.g4
    let hour :=
      match m.ampm with
      | some true => if hour0 ≠ 12 then hour0 + 12 else hour0
      | some false => if hour0 = 12 then 0 else hour0
      | none => hour0
    (normalizeYear m.g3, m.g1, m.g2, hour, m.g5, (m.g6.getD 0 : Nat))
  | .EU | .BR | .DE => (normalizeYear m.g3, m.g2, m.g1, m.g4, m.g5, (m.g6.getD 0 : Nat))
  | .ISO => (m.g1, m.g2, m.g3, m.g4, m.g5, (m.g6.getD 0 : Nat))

/-- The epoch milliseconds of the candidate
`new Date(year, month - 1, day, hour, minute, second)` of
`parseDateFromMatch`. -/
def candidateMs (format : DateFormat) (m : DateMatch) : Int :=
  let c := dateComponents format m
  mkDateMs c.1 (c.2.1 - 1) c.2.2.1 c.2.2.2.1 c.2.2.2.2.1 c.2.2.2.2.2

/-- `parseDateFromMatch`: reject any candidate whose calendar year falls
outside `[2009, 2100]`.  The `isNaN` guard is vacuous for matchable
inputs (every capture group is at most 4 digits, so the resulting time
value is far below the `Date` range limit) and is not represented. -/
def parseDateFromMatch (format : DateFormat) (m : DateMatch) : Option Int :=
  let ms := candidateMs format m
  if msFullYear ms < 2009 ∨ msFullYear ms > 2100 then none
  else some ms

/-- The result of `parseMessageLine`. -/
structure ParsedLine where
  ts : Int
  sender : Str
  content : Str
  format : DateFormat
  deriving DecidableEq, Repr

/-- The separator pattern `^\s*[-:\]]\s*` between timestamp and message
content; returns the remainder after the whole separator match. -/
def separatorSplit (remainder : Str) : Option Str :=
  let r := remainder.dropWhile isWs
  match r with
  | c :: r2 => if c = '-' ∨ c = ':' ∨ c = ']' then some (r2.dropWhile isWs) else none
  | [] => none

/-- The `formatsToTry` list of `parseMessageLine`: the previously
successful format first. -/
def formatsToTry (preferred : Option DateFormat) : List DateFormat :=
  match preferred with
  | some p => p :: dateFormatKeys.filter (fun f => f ≠ p)
  | none => dateFormatKeys

/-- The body of `parseMessageLine` for one format: date match, date
validation, separator and sender/content split; `none` means `continue`
to the next format. -/
def tryFormat (format : DateFormat) (line : Str) : Option ParsedLine := do
  let m ← matchFormat format line
  let ts ← parseDateFromMatch format m
  let messageContent ← separatorSplit m.rest
  match messageContent.findIdx? (fun c => c = ':') with
  | some colonIndex =>
    if 0 < colonIndex ∧ colonIndex < 50 then
      pure ⟨ts, trimStr (messageContent.take colonIndex),
        trimStr (messageContent.drop (colonIndex + 1)), format⟩
    else
      pure ⟨ts, [], trimStr messageContent, format⟩
  | none => pure ⟨ts, [], trimStr messageContent, format⟩

/-- `parseMessageLine`: try each format in order, preferred format first. -/
def parseMessageLine (line : Str) (preferred : Option DateFormat) : Option ParsedLine :=
  (formatsToTry preferred).firstM (fun f => tryFormat f line)

/-- `DELETED_PATTERNS`: all are case-insensitive substring tests. -/
def deletedPatterns : List Str :=
  ["this message was deleted".toList, "you deleted this message".toList,
   "ce message a été supprimé".toList, "diese nachricht wurde gelöscht".toList,
   "este mensaje fue eliminado".toList, "esta mensagem foi apagada".toList]

/-- `SYSTEM_PATTERNS` minus `/left$/i`: case-insensitive substring tests. -/
def systemSubstrings : List Str :=
  ["created group".toList, "changed the subject".toList, "changed this group".toList,
   "added you".toList, "removed you".toList, "joined using".toList,
   "changed the group".toList, "messages and calls are end-to-end encrypted".toList,
   "security code changed".toList, "vous a ajouté".toList, "a quitté".toList,
   "a créé le groupe".toList]

/-- `content` matches some `SYSTEM_PATTERNS` entry (including the
end-anchored `/left$/i`). -/
def matchesSystem (content : Str) : Bool :=
  let lc := lowerStr content
  systemSubstrings.any (fun p => containsSub p lc) ∨ "left".toList.isSuffixOf lc

/-- `content` matches some `DELETED_PATTERNS` entry. -/
def matchesDeleted (content : Str) : Bool :=
  let lc := lowerStr content
  deletedPatterns.any (fun p => containsSub p lc)

/-- `MEDIA_PLACEHOLDERS`, in object insertion order. -/
def mediaPlaceholders : List (Str × MediaKind) :=
  [("<Media omitted>".toList, .media), ("image omitted".toList, .image),
   ("video omitted".toList, .video), ("audio omitted".toList, .audio),
   ("document omitted".toList, .document), ("sticker omitted".toList, .sticker),
   ("GIF omitted".toList, .image), ("Contact card omitted".toList, .contact),
   ("Location:".toList, .location),
   ("<Téléchargement indisponible>".toList, .media),
   ("<Téléchargement du fichier média impossible>".toList, .media),
   ("image téléchargement indisponible".toList, .image),
   ("<Medien weggelassen>".toList, .media), ("Bild weggelassen".toList, .image),
   ("<Multimedia omitido>".toList, .media), ("imagen omitida".toList, .image),
   ("<Mídia oculta>".toList, .media), ("imagem ocultada".toList, .image)]

/-- First media placeholder contained (case-insensitively) in `content`. -/
def findMediaPlaceholder (content : Str) : Option MediaKind :=
  let lc := lowerStr content
  (mediaPlaceholders.find? (fun p => containsSub (lowerStr p.1) lc)).map (fun p => p.2)

/-- Extensions of the `"(file attached)"` pattern, in alternation order. -/
def attachedExts : List Str :=
  ["jpg".toList, "jpeg".toList, "png".toList, "gif".toList, "webp".toList,
   "mp4".toList, "mp3".toList, "opus".toList, "ogg".toList, "pdf".toList,
   "doc".toList, "docx".toList]

/-- The unanchored test
`/\.(jpg|...|docx)\s*\(file attached\)/i` on `content`. -/
def matchesFileAttached (content : Str) : Bool :=
  let lc := lowerStr content
  lc.tails.any (fun t =>
    match t with
    | '.' :: r => attachedExts.any (fun e =>
        e.isPrefixOf r ∧ "(file attached)".toList.isPrefixOf ((r.drop e.length).dropWhile isWs))
    | _ => false)

/-- Substring test `/\.(e₁|e₂|...)/i` used by
`detectMediaTypeFromFilename`. -/
def hasDotExt (exts : List Str) (lc : Str) : Bool :=
  lc.tails.any (fun t =>
    match t with
    | '.' :: r => exts.any (fun e => e.isPrefixOf r)
    | _ => false)

/-- `detectMediaTypeFromFilename`. -/
def detectMediaTypeFromFilename (content : Str) : Option MediaKind :=
  let lc := lowerStr content
  if hasDotExt ["jpg".toList, "jpeg".toList, "png".toList, "gif".toList, "webp".toList] lc then some .image
  else if hasDotExt ["mp4".toList, "mov".toList, "avi".toList] lc then some .video
  else if hasDotExt ["mp3".toList, "opus".toList, "ogg".toList, "m4a".toList] lc then some .audio
  else if hasDotExt ["pdf".toList, "doc".toList, "docx".toList, "xls".toList, "xlsx".toList] lc then some .document
  else none

/-- The open message accumulator (`currentMessage`). -/
structure OpenMessage where
  ts : Int
  sender : Str
  content : Str
  rawLine : Str
  deriving DecidableEq, Repr

/-- `finalizeMessage`: trim the content and classify with the priority
deleted > system / senderless > media placeholder > file-attached >
text. -/
def finalizeMessage (m : OpenMessage) : ParsedMessage :=
  let content := trimStr m.content
  if matchesDeleted content then
    ⟨m.ts, m.sender, content, .deleted, none, m.rawLine⟩
  else if m.sender = [] ∨ matchesSystem content then
    ⟨m.ts, m.sender, content, .system, none, m.rawLine⟩
  else
    match findMediaPlaceholder content with
    | some k => ⟨m.ts, m.sender, content, .media, some k, m.rawLine⟩
    | none =>
      if matchesFileAttached content then
        ⟨m.ts, m.sender, content, .media, detectMediaTypeFromFilename content, m.rawLine⟩
      else
        ⟨m.ts, m.sender, content, .text, none, m.rawLine⟩

/-- `ParserOptions` (the unused `locale` hint is omitted). -/
structure ParserOptions where
  includeSystemMessages : Bool := true
  includeDeletedMessages : Bool := true
  deriving DecidableEq, Repr

/-- State of the line loop of `parseWhatsAppExport`. -/
structure ParseState where
  messages : List ParsedMessage
  participants : List Str
  cur : Option OpenMessage
  detectedFormat : Option DateFormat
  deriving Repr

/-- Finalize and push the open accumulator, honoring the include options
and collecting participants (a `Set`, embedded as a first-occurrence
list). -/
def flushCurrent (o : ParserOptions) (st : ParseState) : ParseState :=
  match st.cur with
  | none => st
  | some c =>
    let fm := finalizeMessage c
    if (fm.mtype = MessageType.system ∧ ¬o.includeSystemMessages) ∨
       (fm.mtype = MessageType.deleted ∧ ¬o.includeDeletedMessages) then
      { st with cur := none }
    else
      { st with
        messages := st.messages ++ [fm],
        participants :=
          if fm.sender ≠ [] ∧ fm.mtype ≠ MessageType.system ∧ fm.sender ∉ st.participants then
            st.participants ++ [fm.sender]
          else st.participants,
        cur := none }

/-- One iteration of the line loop of `parseWhatsAppExport`: blank lines
are skipped; a line matching a timestamp pattern finalizes the open
accumulator and opens a new one; any other line is a continuation of the
open message, or is dropped when none is open. -/
def parseStep (o : ParserOptions) (st : ParseState) (line : Str) : ParseState :=
  if trimStr line = [] then st
  else
    match parseMessageLine line st.detectedFormat with
    | some parsed =>
      let st1 := flushCurrent o st
      { st1 with
        cur := some ⟨parsed.ts, parsed.sender, parsed.content, line⟩,
        detectedFormat := some parsed.format }
    | none =>
      match st.cur with
      | some c =>
        let c1 : OpenMessage :=
          { c with content := c.content ++ '\n' :: line, rawLine := c.rawLine ++ '\n' :: line }
        { st with cur := some c1 }
      | none => st

/-- `content.split(/\r?\n/)`: split on newlines, dropping one carriage
return before each newline. -/
def splitExportLines (content : Str) : List Str :=
  (content.splitOn '\n').map (fun l =>
    if l.getLast? = some '\r' then l.dropLast else l)

/-- Lexicographic UTF-16-code-unit order used by the default
`Array.prototype.sort` on the participant strings (all code points in
scope are below `0x10000`, where code-unit and code-point order agree). -/
def strLe (a b : Str) : Prop := (a.map Char.toNat) ≤ (b.map Char.toNat)

instance : DecidableRel strLe := fun a b =>
  inferInstanceAs (Decidable ((a.map Char.toNat) ≤ (b.map Char.toNat)))

/-- `ParserResult` (aggregated metadata inlined as fields). -/
structure ParserResult where
  messages : List ParsedMessage
  participants : List Str
  startDate : Option Int
  endDate : Option Int
  totalMessages : Nat
  textMessages : Nat
  mediaMessages : Nat
  systemMessages : Nat
  deletedMessages : Nat
  deriving Repr

/-- `parseWhatsAppExport`. -/
def parseWhatsAppExport (content : Str) (o : ParserOptions) : ParserResult :=
  let st0 : ParseState := ⟨[], [], none, none⟩
  let st := flushCurrent o ((splitExportLines content).foldl (parseStep o) st0)
  let messages := st.messages
  { messages := messages,
    participants := List.insertionSort strLe st.participants,
    startDate := (messages.head?).map (fun m => m.ts),
    endDate := (messages.getLast?).map (fun m => m.ts),
    totalMessages := messages.length,
    textMessages := (messages.filter (fun m => m.mtype = MessageType.text)).length,
    mediaMessages := (messages.filter (fun m => m.mtype = MessageType.media)).length,
    systemMessages := (messages.filter (fun m => m.mtype = MessageType.system)).length,
    deletedMessages := (messages.filter (fun m => m.mtype = MessageType.deleted)).length }

/-!
Embedding of the hybrid retriever (`src/rag/retriever.ts`).  The
embedding provider and the vector store are external capabilities, so
`retrieve` is embedded as a pure function of the vector-search response
and of the stored corpus (`scrollAll`), which the keyword stage scans.
JavaScript score arithmetic is embedded over exact rationals.
-/

/-- A stored chunk as the retriever reads it: its id (an opaque
identifier, embedded as `Nat`) and its messages.  Embedding vector,
summary and conversation name are never read by the retriever logic in
scope. -/
structure StoredChunk where
  id : Nat
  messages : List ParsedMessage
  deriving DecidableEq, Repr

/-- One vector-search hit `(chunk, score)`. -/
structure VectorHit where
  chunk : StoredChunk
  score : ℚ
  deriving DecidableEq, Repr

/-- The stop-word set of `extractKeywords`. -/
def stopWords : List Str :=
  ["le", "la", "les", "de", "du", "des", "un", "une", "et", "ou", "à", "au", "aux",
   "ce", "ces", "on", "qui", "que", "quoi", "est", "a", "ont", "sont", "pour",
   "dans", "sur", "avec", "par", "en", "quand", "comment", "pourquoi",
   "the", "a", "an", "is", "are", "was", "were", "be", "been", "being",
   "have", "has", "had", "do", "does", "did", "will", "would", "could", "should",
   "of", "to", "in", "for", "on", "with", "at", "by", "from", "about",
   "est-ce", "qu'on", "c'est", "n'est", "j'ai", "t'as"].map String.toList

/-- The elision prefixes of `extractKeywords`. -/
def contractionPrefixes : List Str :=
  ["d'", "l'", "j'", "m'", "t'", "s'", "n'", "c'", "qu'"].map String.toList

/-- The character class `[\w\s'àâäéèêëïîôùûüç-]` kept by the
punctuation-stripping `replace` of `extractKeywords` (all other
characters become spaces). -/
def keptChar (c : Char) : Bool :=
  ('a' ≤ c ∧ c ≤ 'z') ∨ ('A' ≤ c ∧ c ≤ 'Z') ∨ ('0' ≤ c ∧ c ≤ '9') ∨ c = '_' ∨
  isWs c ∨ c = '\'' ∨ c = '-' ∨
  c ∈ ['à', 'â', 'ä', 'é', 'è', 'ê', 'ë', 'ï', 'î', 'ô', 'ù', 'û', 'ü', 'ç']

/-- `split(/\s+/)`: group maximal runs of non-whitespace, with a single
leading empty token when the string starts with whitespace (JavaScript
`split` semantics; a trailing empty token is dropped eagerly here — the
caller's length filter removes every empty token anyway). -/
def splitWsRuns (s : Str) : List Str :=
  match s with
  | [] => [[]]
  | c :: _ =>
    let groups := ((s.map (fun d => if isWs d then ' ' else d)).splitOn ' ').filter
      (fun g => g ≠ [])
    if isWs c then [] :: groups else
      match groups with
      | [] => [[]]
      | _ => groups

/-- The contraction `flatMap` of `extractKeywords`. -/
def expandContraction (word : Str) : List Str :=
  match contractionPrefixes.find? (fun p => p.isPrefixOf word) with
  | some p => [word.drop p.length]
  | none =>
    if word.contains '\'' then
      (word.splitOn '\'').filter (fun w => w.length > 2)
    else [word]

/-- `extractKeywords`.  The apostrophe-normalizing `replace` comes first;
in this copy of the source its character class holds the straight
apostrophe twice, so the step maps apostrophes to apostrophes and is the
identity. -/
def extractKeywords (query : Str) : List Str :=
  let normalized := (lowerStr query).map (fun c => if c = '\'' then '\'' else c)
  let stripped := normalized.map (fun c => if keptChar c then c else ' ')
  (((splitWsRuns stripped).flatMap expandContraction).filter
    (fun w => w.length > 2 ∧ w ∉ stopWords))

/-- The searchable text of a chunk in `chunkContainsKeywords`:
lower-cased `sender content` pairs joined by spaces. -/
def chunkSearchText (chunk : StoredChunk) : Str :=
  List.intercalate [' ']
    (chunk.messages.map (fun m => lowerStr (m.sender ++ ' ' :: m.content)))

/-- The keyword-occurrence count of `chunkContainsKeywords`. -/
def keywordMatchCount (chunk : StoredChunk) (keywords : List Str) : Nat :=
  keywords.countP (fun k => containsSub k (chunkSearchText chunk))

/-- `keywordSearch`: chunks containing at least one keyword, sorted by
descending match count (stable), truncated to `limit`. -/
def keywordSearch (allChunks : List StoredChunk) (keywords : List Str) (limit : Nat) :
    List StoredChunk :=
  let found := allChunks.filterMap (fun c =>
    let count := keywordMatchCount c keywords
    if 0 < count then some (c, count) else none)
  ((List.insertionSort (fun a b : StoredChunk × Nat => b.2 ≤ a.2) found).take limit).map
    (fun m => m.1)

/-- One entry of the fusion `Map` of `retrieve`. -/
structure FusedEntry where
  chunk : StoredChunk
  score : ℚ
  hasKeywords : Bool
  deriving DecidableEq, Repr

/-- `Map.prototype.set` keyed by chunk id on an insertion-ordered entry
list: overwrite in place, or append when the key is new. -/
def mapSet (entries : List FusedEntry) (e : FusedEntry) : List FusedEntry :=
  if entries.any (fun x => x.chunk.id = e.chunk.id) then
    entries.map (fun x => if x.chunk.id = e.chunk.id then e else x)
  else entries ++ [e]

/-- The fused entry built for one vector-stage hit: keyword boost
`min(0.2 × count, 0.5)` (zero when no keyword matches) and fused score
`min(score + boost, 1.0)`. -/
def vectorEntry (keywords : List Str) (r : VectorHit) : FusedEntry :=
  let count := keywordMatchCount r.chunk keywords
  let boost : ℚ := if 0 < count then min ((2 : ℚ) / 10 * count) ((5 : ℚ) / 10) else 0
  ⟨r.chunk, min (r.score + boost) 1, decide (0 < count)⟩

/-- The first fusion loop of `retrieve`: add all vector-stage hits. -/
def addVectorResults (keywords : List Str) (entries : List FusedEntry)
    (results : List VectorHit) : List FusedEntry :=
  results.foldl (fun m r => mapSet m (vectorEntry keywords r)) entries

/-- The synthetic score of a keyword-only chunk:
`min(0.6 + 0.1 × count, 0.9)`. -/
def keywordOnlyScore (chunk : StoredChunk) (keywords : List Str) : ℚ :=
  min ((6 : ℚ) / 10 + (1 : ℚ) / 10 * (keywordMatchCount chunk keywords)) ((9 : ℚ) / 10)

/-- The second fusion loop of `retrieve`: add keyword-stage chunks whose
id is not yet present. -/
def addKeywordResults (keywords : List Str) (entries : List FusedEntry)
    (keywordChunks : List StoredChunk) : List FusedEntry :=
  keywordChunks.foldl (fun m c =>
    if m.any (fun x => x.chunk.id = c.id) then m
    else mapSet m ⟨c, keywordOnlyScore c keywords, true⟩) entries

/-- The keyword stage of `retrieve`: runs only when some extracted
keyword has length at least 4, and keeps the top 10 scanned chunks. -/
def keywordStage (allChunks : List StoredChunk) (keywords : List Str) :
    List StoredChunk :=
  if keywords ≠ [] ∧ keywords.any (fun k => 4 ≤ k.length) then
    keywordSearch allChunks keywords 10
  else []

/-- The fused union of both stages, in `Map` insertion order. -/
def fusedUnion (results : List VectorHit) (allChunks : List StoredChunk)
    (keywords : List Str) : List FusedEntry :=
  addKeywordResults keywords (addVectorResults keywords [] results)
    (keywordStage allChunks keywords)

/-- The pure core of `Retriever.retrieve`: fuse the vector-search
response with the keyword scan of the stored corpus, sort by descending
fused score (stable), filter by `minScore` and truncate to `topK`. -/
def retrieve (results : List VectorHit) (allChunks : List StoredChunk)
    (query : Str) (topK : Nat) (minScore : ℚ) : List FusedEntry :=
  let keywords := extractKeywords query
  let allResults := fusedUnion results allChunks keywords
  let sorted := List.insertionSort (fun a b : FusedEntry => b.score ≤ a.score) allResults
  (sorted.filter (fun r => decide (minScore ≤ r.score))).take topK

/-- The over-fetch size `max(topK * 5, 25)` requested from the vector
store. -/
def overFetchTopK (topK : Nat) : Nat := max (topK * 5) 25

/-- The relaxed vector-stage floor `max(minScore - 0.3, 0.2)`. -/
def relaxedMinScore (minScore : ℚ) : ℚ := max (minScore - 3 / 10) (2 / 10)

/-!
Embedding of `Retriever.buildContext`.  `getChunkHeader` renders locale
dependent strings (`toLocaleDateString`, `toLocaleTimeString`), so the
header renderer is a parameter; the loop operates on each chunk's
`### header\ntext\n` block through its length only.
-/

/-- The `### header\ntext\n` block of one chunk. -/
def contextBlock (header : StoredChunk → Str) (chunk : StoredChunk) : Str :=
  "### ".toList ++ header chunk ++ '\n' :: getChunkText ⟨chunk.messages⟩ ++ ['\n']

/-- The accumulation loop of `buildContext` over pre-rendered blocks,
carrying `currentLength`: a block that would overflow the budget is
truncated with an ellipsis when strictly more than 200 characters of
budget remain, otherwise dropped, and the loop breaks either way. -/
def buildLoop (maxLength : Nat) : Nat → List Str → List Str
  | _, [] => []
  | currentLength, block :: rest =>
    if currentLength + block.length > maxLength then
      let remaining := maxLength - currentLength
      if remaining > 200 then [block.take remaining ++ "...".toList] else []
    else block :: buildLoop maxLength (currentLength + block.length) rest

/-- The parts list `buildContext` accumulates before joining. -/
def buildContextParts (blocks : List Str) (maxLength : Nat) : List Str :=
  buildLoop maxLength 0 blocks

/-- The default `maxLength` of `buildContext`. -/
def buildContextDefaultMaxLength : Nat := 8000

/-- `Retriever.buildContext`, parameterized by the locale-dependent
header renderer. -/
def buildContext (header : StoredChunk → Str) (chunks : List StoredChunk)
    (maxLength : Nat) : Str :=
  List.intercalate "\n---\n\n".toList
    (buildContextParts (chunks.map (contextBlock header)) maxLength)

/-!
Embedding of the ReAct agent loop (`src/rag/agent/react.ts`).  The LLM
is an external capability: the loop is embedded as a function of the
sequence of parsed model completions (`parseResponse` results, indexed by
generation call), of the tool dispatcher (which in the source is wrapped
so that it always yields an observation string) and of the separate
synthesis path used on exhaustion.
-/

/-- `MAX_ITERATIONS`. -/
def MAX_ITERATIONS : Nat := 5

/-- The result shape of `parseResponse`: every field optional.
`actionInput` is kept as the raw JSON text (its object structure is never
inspected by the loop itself). -/
structure ParsedResponse where
  thought : Option Str := none
  action : Option Str := none
  actionInput : Option Str := none
  finalAnswer : Option Str := none
  deriving DecidableEq, Repr

/-- JavaScript truthiness of an optional string (`undefined` and `""`
are falsy). -/
def truthyStr (s : Option Str) : Bool :=
  match s with
  | some v => v ≠ []
  | none => false

/-- One recorded `AgentStep`. -/
structure AgentStep where
  thought : Str
  action : Option Str
  actionInput : Option Str
  observation : Str
  deriving DecidableEq, Repr

/-- Loop-carried state of `ReActAgent.run`: the recorded steps and the
`finalAnswer` accumulator (initially the empty string). -/
structure AgentLoopState where
  steps : List AgentStep
  finalAnswer : Str
  deriving DecidableEq, Repr

/-- The `while (iterations < MAX_ITERATIONS)` loop of `ReActAgent.run`.
`responses i` is the parsed completion of generation call `i` (zero
based); `execTool` is the wrapped dispatcher (unknown tools and tool
errors are already observation strings).  Returns the total number of
generation calls made and the final state. -/
def agentLoop (responses : Nat → ParsedResponse) (execTool : Str → Str → Str)
    (iterations : Nat) (st : AgentLoopState) : Nat × AgentLoopState :=
  if iterations < MAX_ITERATIONS then
    let parsed := responses iterations
    let iterations1 := iterations + 1
    if truthyStr parsed.finalAnswer then
      (iterations1, { st with finalAnswer := parsed.finalAnswer.getD [] })
    else if parsed.action.isSome ∧ parsed.actionInput.isSome then
      let observation := execTool (parsed.action.getD []) (parsed.actionInput.getD [])
      agentLoop responses execTool iterations1
        { st with steps := st.steps ++
            [⟨(parsed.thought.getD []), parsed.action, parsed.actionInput, observation⟩] }
    else
      agentLoop responses execTool iterations1 st
  else (iterations, st)
  termination_by MAX_ITERATIONS - iterations

/-- Result of `ReActAgent.run` restricted to what the claims mention:
the answer, the recorded steps and the number of loop generation calls. -/
structure AgentRunResult where
  answer : Str
  steps : List AgentStep
  loopGenerations : Nat
  deriving DecidableEq, Repr

/-- `ReActAgent.run`: run the bounded loop; when it ends without a
truthy final answer, the answer comes from the separate synthesis path
(`synthesizeAnswer`, a further LLM call outside the loop, abstracted as
`synth`). -/
def agentRun (responses : Nat → ParsedResponse) (execTool : Str → Str → Str)
    (synth : List AgentStep → Str) : AgentRunResult :=
  let r := agentLoop responses execTool 0 ⟨[], []⟩
  let st := r.2
  ⟨if st.finalAnswer = [] then synth st.steps else st.finalAnswer, st.steps, r.1⟩

/-!
Embedding of the ingestion pipeline (`src/ingestion/pipeline.ts`).
External calls (file parse, batched embedding, per-chunk summarization,
vector-store upsert) are supplied by an environment of `Except`-valued
results; `Except.error` is a thrown exception.  Progress updates are
field-level merges on the single job's record (each job id is touched
only by its own run).
-/

/-- `IngestionProgress.status`. -/
inductive IngestionStatus where
  | pending | parsing | chunking | embedding | storing | completed | failed
  deriving DecidableEq, Repr

/-- The job's progress record (timestamps abstracted to the environment's
clock values). -/
structure IngestionProgress where
  status : IngestionStatus
  error : Option Str := none
  startedAt : Option Int := none
  completedAt : Option Int := none
  totalMessages : Option Nat := none
  totalChunks : Option Nat := none
  processedChunks : Option Nat := none
  deriving DecidableEq, Repr

/-- `IngestionOptions` merged with the pipeline's `DEFAULT_OPTIONS`. -/
structure IngestionOptions where
  chunkGapMinutes : Nat := 30
  chunkMaxMessages : Nat := 50
  chunkMaxChars : Nat := 4000
  generateSummaries : Bool := false
  includeSystemMessages : Bool := true
  includeDeletedMessages : Bool := false
  deriving DecidableEq, Repr

/-- The `ChunkerOptions` the pipeline passes to `chunkMessages`
(`minMessages` is left at the chunker default). -/
def pipelineChunkerOptions (opts : IngestionOptions) : ChunkerOptions :=
  { gapMinutes := opts.chunkGapMinutes, maxMessages := opts.chunkMaxMessages,
    maxChunkChars := opts.chunkMaxChars }

/-- The external world of one `ingest` call: outcome of the file parse,
of each `embedBatch` call (by the batch's texts), of each summarization
call, of the `upsertBatch` call, and the clock readings used for
`startedAt`/`completedAt`. -/
structure IngestEnv where
  parseResult : Except Str (List ParsedMessage)
  embedBatchResult : List Str → Except Str Unit
  summaryResult : Str → Except Str Str
  upsertResult : Except Str Unit
  startTime : Int
  finishTime : Int

/-- Batches of `n` consecutive elements (the `for (let i = 0; ...; i += batchSize)`
slicing). -/
def listBatches (n : Nat) (l : List α) : List (List α) :=
  match l, n with
  | [], _ => []
  | _, 0 => []
  | x :: xs, m + 1 => (x :: xs).take (m + 1) :: listBatches (m + 1) ((x :: xs).drop (m + 1))
  termination_by l.length
  decreasing_by
    simp only [List.length_drop, List.length_cons]
    omega

/-- The per-chunk embedding text: `getChunkText` truncated to the safe
embedding limit of 6000 characters with an ellipsis marker. -/
def embeddingText (c : Chunk) : Str :=
  let text := getChunkText c
  if text.length > 6000 then text.take 6000 ++ "...".toList else text

/-- `generateSummary`: a failed summarization call degrades to an empty
summary and never propagates. -/
def generateSummary (env : IngestEnv) (text : Str) : Str :=
  match env.summaryResult text with
  | .ok s => s
  | .error _ => []

/-- The batched embedding stage: one `embedBatch` call per batch of 10
chunks, optional per-chunk summarization, and a `processedChunks`
progress update after each batch.  An `embedBatch` error aborts the
stage. -/
def embedStage (env : IngestEnv) (opts : IngestionOptions) (chunks : List Chunk)
    (p : IngestionProgress) : Except Str Unit × IngestionProgress :=
  (listBatches 10 chunks).foldl
    (fun acc batch =>
      match acc with
      | (.error e, p1) => (.error e, p1)
      | (.ok _, p1) =>
        let texts := batch.map embeddingText
        match env.embedBatchResult texts with
        | .error e => (.error e, p1)
        | .ok _ =>
          let _ := if opts.generateSummaries then texts.map (generateSummary env) else []
          let p2 : IngestionProgress :=
            { p1 with processedChunks := some (p1.processedChunks.getD 0 + batch.length) }
          (.ok (), p2))
    (.ok (), p)

/-- The `catch` branch of `ingest`: mark the job failed with the captured
error message and a completion timestamp. -/
def failProgress (p : IngestionProgress) (e : Str) (t : Int) : IngestionProgress :=
  { p with status := .failed, error := some e, completedAt := some t }

/-- The fields of `IngestionResult` the claims mention. -/
structure IngestionResult where
  totalMessages : Nat
  totalChunks : Nat
  deriving DecidableEq, Repr

/-- `IngestionPipeline.ingest`: the staged run with progress updates; any
stage error is recorded in the job's progress as `failed` and rethrown to
the caller. -/
def ingest (env : IngestEnv) (opts : IngestionOptions) :
    Except Str IngestionResult × IngestionProgress :=
  let p0 : IngestionProgress := { status := .pending, startedAt := some env.startTime }
  let p1 := { p0 with status := IngestionStatus.parsing }
  match env.parseResult with
  | .error e => (.error e, failProgress p1 e env.finishTime)
  | .ok messages =>
    let p2 := { p1 with totalMessages := some messages.length }
    let p3 := { p2 with status := IngestionStatus.chunking }
    let chunks := chunkMessages messages (pipelineChunkerOptions opts)
    let p4 := { p3 with totalChunks := some chunks.length }
    let p5 := { p4 with status := IngestionStatus.embedding }
    match embedStage env opts chunks p5 with
    | (.error e, p6) => (.error e, failProgress p6 e env.finishTime)
    | (.ok _, p6) =>
      let p7 := { p6 with status := IngestionStatus.storing }
      match env.upsertResult with
      | .error e => (.error e, failProgress p7 e env.finishTime)
      | .ok _ =>
        let p8 := { p7 with status := IngestionStatus.completed,
                            completedAt := some env.finishTime }
        (.ok ⟨messages.length, chunks.length⟩, p8)

/-!
Proof-support definitions: invariants of the chunker loops, key lists of
the fusion map, the spec's unfiltered chunk rendering, and concrete
inputs used by closed evaluation theorems.
-/

/-- Concatenation of the message lists of a chunk list. -/
def chunksMessages (cs : List Chunk) : List ParsedMessage :=
  (cs.map Chunk.messages).flatten

/-- All messages held by a greedy-loop state, in order. -/
def greedyJoin (s : GreedyState) : List ParsedMessage :=
  chunksMessages s.chunks ++ s.cur

/-- All messages held by a merge-loop state, in order. -/
def mergeJoin (s : MergeState) : List ParsedMessage :=
  chunksMessages s.result ++ s.pending

/-- Adjacent messages separated by less than the gap threshold. -/
def gapLt (gapMinutes : Nat) (a b : ParsedMessage) : Prop :=
  b.ts - a.ts < (gapMinutes : Int) * 60000

/-- A boundary between consecutive chunks is justified: when the left
chunk ends at `a` and the right chunk starts at `b`, appending `b` to the
left chunk would have violated the character budget, the message cap, or
the gap threshold. -/
def boundaryJustified (options : ChunkerOptions) (c1 c2 : Chunk) : Prop :=
  ∀ a ∈ c1.messages.getLast?, ∀ b ∈ c2.messages.head?,
    getMessagesCharCount c1.messages + getMessageCharCount b > options.maxChunkChars ∨
    c1.messages.length ≥ options.maxMessages ∨
    b.ts - a.ts ≥ (options.gapMinutes : Int) * 60000

/-- Invariant of the greedy partition loop: the character accumulator is
exact, chunks are only emitted nonempty, no within-chunk gap reaches the
threshold, and every boundary (including the one to the open chunk) is
justified. -/
def GreedyInv (options : ChunkerOptions) (s : GreedyState) : Prop :=
  s.curChars = getMessagesCharCount s.cur ∧
  (s.cur = [] → s.chunks = []) ∧
  (∀ c ∈ s.chunks, c.messages ≠ []) ∧
  (∀ c ∈ s.chunks, List.Chain' (gapLt options.gapMinutes) c.messages) ∧
  List.Chain' (gapLt options.gapMinutes) s.cur ∧
  List.Chain' (boundaryJustified options) s.chunks ∧
  (s.cur ≠ [] → ∀ c ∈ s.chunks.getLast?, boundaryJustified options c (createChunk s.cur))

/-- Every chunk of `cs` survives contiguously in the merge state: inside
an emitted chunk or inside the pending buffer. -/
def MergeCover (cs : List Chunk) (s : MergeState) : Prop :=
  ∀ c ∈ cs, (∃ r ∈ s.result, c.messages <:+: r.messages) ∨ c.messages <:+: s.pending

/-- The chunk ids of the fusion map entries, in insertion order. -/
def entryKeys (entries : List FusedEntry) : List Nat :=
  entries.map (fun e => e.chunk.id)

/-- Modelled from the spec: the canonical chunk rendering described in
§4.2 — "each message as `[YYYY-MM-DD HH:MM] sender: content`,
newline-joined" — applied to every message of the chunk, for comparison
with the source's `getChunkText`. -/
def renderChunkSpec (c : Chunk) : Str :=
  List.intercalate ['\n'] (c.messages.map renderMessage)

/-- Total rendered length of a block list. -/
def blocksLen (blocks : List Str) : Nat :=
  (blocks.map List.length).sum

/-- Four text messages: one isolated early message, then a burst of
three, used to evaluate the merge pass against the message cap. -/
def capMessages : List ParsedMessage :=
  [⟨0, ['a'], ['x'], .text, none, []⟩,
   ⟨6000000, ['a'], ['x'], .text, none, []⟩,
   ⟨6000001, ['a'], ['x'], .text, none, []⟩,
   ⟨6000002, ['a'], ['x'], .text, none, []⟩]

/-- Options with a message cap of 3 for the merge-pass evaluation. -/
def capOptions : ChunkerOptions := { maxMessages := 3 }

/-- Two tiny text messages two hours apart. -/
def gapMessages : List ParsedMessage :=
  [⟨0, ['a'], ['x'], .text, none, []⟩, ⟨7200000, ['b'], ['y'], .text, none, []⟩]

/-- A stored chunk mentioning a ball game, for concrete retrieval
evaluation. -/
def ballChunk : StoredChunk :=
  ⟨1, [⟨0, "Ann".toList, "the ball game was fun".toList, .text, none, []⟩]⟩

/-- A stored chunk with unrelated content. -/
def otherChunk : StoredChunk :=
  ⟨2, [⟨0, "Bob".toList, "nothing here".toList, .text, none, []⟩]⟩

/-- An ingestion environment whose file parse fails. -/
def failingParseEnv : IngestEnv :=
  { parseResult := .error "boom".toList,
    embedBatchResult := fun _ => .ok (),
    summaryResult := fun t => .ok t,
    upsertResult := .ok (),
    startTime := 0,
    finishTime := 1 }

/-!
Theorems.  First the chunker lemmas shared by the conservation, gap-rule
and message-cap claims.
-/

theorem chunksMessages_append (cs ds : List Chunk) :
    chunksMessages (cs ++ ds) = chunksMessages cs ++ chunksMessages ds := by
  simp [chunksMessages]

theorem chunksMessages_singleton (c : Chunk) :
    chunksMessages [c] = c.messages := by
  simp [chunksMessages]

theorem getMessagesCharCount_append (l1 l2 : List ParsedMessage) :
    getMessagesCharCount (l1 ++ l2) = getMessagesCharCount l1 + getMessagesCharCount l2 := by
  simp [getMessagesCharCount]

theorem greedyStep_join (options : ChunkerOptions) (s : GreedyState) (m : ParsedMessage) :
    greedyJoin (greedyStep options s m) = greedyJoin s ++ [m] := by
  unfold greedyStep greedyJoin
  dsimp only
  split
  · simp [chunksMessages_append, chunksMessages_singleton, createChunk]
  · simp

theorem greedy_foldl_join (options : ChunkerOptions) (msgs : List ParsedMessage) :
    ∀ s : GreedyState,
      greedyJoin (msgs.foldl (greedyStep options) s) = greedyJoin s ++ msgs := by
  induction msgs with
  | nil => intro s; simp
  | cons m rest ih =>
    intro s
    simp only [List.foldl_cons]
    rw [ih, greedyStep_join]
    simp

theorem greedyPartition_join (options : ChunkerOptions) (msgs : List ParsedMessage) :
    chunksMessages (greedyPartition options msgs) = msgs := by
  unfold greedyPartition
  have h := greedy_foldl_join options msgs ⟨[], [], 0⟩
  simp only [greedyJoin, chunksMessages, List.map_nil, List.flatten_nil,
    List.nil_append] at h
  dsimp only
  split
  · next heq =>
    rw [heq] at h
    simpa [chunksMessages] using h
  · next heq =>
    rw [chunksMessages_append, chunksMessages_singleton]
    simpa [chunksMessages, createChunk] using h

theorem mergeStep_join (minMessages maxChunkChars : Nat) (s : MergeState) (c : Chunk) :
    mergeJoin (mergeStep minMessages maxChunkChars s c) = mergeJoin s ++ c.messages := by
  unfold mergeStep mergeJoin
  dsimp only
  split
  · split
    · split
      · simp [chunksMessages_append, chunksMessages_singleton, createChunk]
      · simp [chunksMessages_append, chunksMessages, createChunk]
    · next hpe =>
      have hp : s.pending = [] := not_not.mp hpe
      simp [chunksMessages_append, chunksMessages_singleton, hp]
  · split
    · split
      · simp [chunksMessages_append, chunksMessages, createChunk]
      · simp [chunksMessages_append, chunksMessages, createChunk]
    · split
      · simp [chunksMessages_append, chunksMessages, createChunk]
      · simp

theorem merge_foldl_join (minMessages maxChunkChars : Nat) (cs : List Chunk) :
    ∀ s : MergeState,
      mergeJoin (cs.foldl (mergeStep minMessages maxChunkChars) s) =
        mergeJoin s ++ chunksMessages cs := by
  induction cs with
  | nil => intro s; simp [chunksMessages]
  | cons c rest ih =>
    intro s
    simp only [List.foldl_cons]
    rw [ih, mergeStep_join]
    have : chunksMessages (c :: rest) = c.messages ++ chunksMessages rest := by
      simp [chunksMessages]
    simp [this]

theorem mergeFinal_join (maxChunkChars : Nat) (s : MergeState) :
    chunksMessages (mergeFinal maxChunkChars s) = mergeJoin s := by
  unfold mergeFinal mergeJoin
  split
  · next hp => simp [hp]
  · next hp =>
    split
    · next hnone =>
      have : s.result = [] := by
        cases hr : s.result with
        | nil => rfl
        | cons a l => rw [hr] at hnone; simp [List.getLast?_concat] at hnone
      simp [this, chunksMessages_singleton, createChunk, chunksMessages]
    · next lastChunk hlast =>
      have hne : s.result ≠ [] := by
        intro h
        rw [h] at hlast
        simp at hlast
      have hdecomp : s.result.dropLast ++ [lastChunk] = s.result := by
        have h1 := List.getLast?_eq_getLast s.result hne
        rw [hlast] at h1
        have h2 : lastChunk = s.result.getLast hne := Option.some.inj h1
        rw [h2]
        exact List.dropLast_append_getLast hne
      dsimp only
      split
      · rw [chunksMessages_append, chunksMessages_singleton]
        conv_rhs => rw [← hdecomp]
        simp [chunksMessages_append, chunksMessages_singleton, createChunk]
      · rw [chunksMessages_append]
        conv_rhs => rw [← hdecomp]
        simp [chunksMessages_append, chunksMessages_singleton, createChunk, chunksMessages]

theorem mergeSmallChunks_join (cs : List Chunk) (minMessages maxChunkChars : Nat) :
    chunksMessages (mergeSmallChunks cs minMessages maxChunkChars) = chunksMessages cs := by
  unfold mergeSmallChunks
  split
  · rfl
  · rw [mergeFinal_join, merge_foldl_join]
    simp [mergeJoin, chunksMessages]

theorem chunkMessages_join (msgs : List ParsedMessage) (options : ChunkerOptions) :
    chunksMessages (chunkMessages msgs options) = sortByTimestamp msgs := by
  unfold chunkMessages
  split
  · next h =>
    have : msgs = [] := List.length_eq_zero.mp h
    subst this
    simp [chunksMessages, sortByTimestamp, List.insertionSort]
  · rw [mergeSmallChunks_join, greedyPartition_join]

/-- C2: Chunker message conservation — for every input message list and
every option combination, the message counts of the chunks returned by
`chunkMessages` (after the merge pass) sum to the length of the input
list: no message is lost or duplicated by the greedy partition or by any
branch of the merge pass. -/
theorem chunker_message_conservation (messages : List ParsedMessage)
    (options : ChunkerOptions) :
    ((chunkMessages messages options).map Chunk.messageCount).sum = messages.length := by
  have hj := chunkMessages_join messages options
  have hlen : (chunksMessages (chunkMessages messages options)).length =
      (sortByTimestamp messages).length := by rw [hj]
  have hsort : (sortByTimestamp messages).length = messages.length := by
    unfold sortByTimestamp
    exact (List.perm_insertionSort _ messages).length_eq
  rw [hsort] at hlen
  rw [← hlen]
  simp only [chunksMessages, List.length_flatten, List.map_map]
  rfl

/-- C10: The `maxMessages` cap is enforced only during the greedy
partition — on `capMessages` with a cap of 3 messages per chunk, the
merge pass combines the pending undersized chunk with its neighbour
(checking only the character budget) and `chunkMessages` returns a
single chunk of 4 messages, exceeding `maxMessages`. -/
theorem merge_pass_exceeds_max_messages :
    (chunkMessages capMessages capOptions).map Chunk.messageCount = [4] ∧
    capOptions.maxMessages = 3 := by
  decide

theorem shouldStartNewChunk_some_iff (m p : ParsedMessage) (size chars mc : Nat)
    (options : ChunkerOptions) :
    shouldStartNewChunk m (some p) size chars mc options = true ↔
      chars + mc > options.maxChunkChars ∨ size ≥ options.maxMessages ∨
        m.ts - p.ts ≥ (options.gapMinutes : Int) * 60000 := by
  unfold shouldStartNewChunk
  split
  · next h => simp [h]
  · next h =>
    split
    · next h2 => simp [h, h2]
    · next h2 => simp [h, h2]

theorem greedyStep_inv (options : ChunkerOptions) (s : GreedyState) (m : ParsedMessage)
    (h : GreedyInv options s) : GreedyInv options (greedyStep options s m) := by
  obtain ⟨hchars, hempty, hne, hgap, hgapcur, hbound, hboundcur⟩ := h
  unfold greedyStep
  dsimp only
  split
  · next hsplit =>
    obtain ⟨hss, hcne⟩ := hsplit
    refine ⟨?_, ?_, ?_, ?_, ?_, ?_, ?_⟩
    · simp [getMessagesCharCount]
    · simp
    · intro c hc
      rcases List.mem_append.mp hc with h1 | h1
      · exact hne c h1
      · simp only [List.mem_singleton] at h1
        subst h1
        simpa [createChunk] using hcne
    · intro c hc
      rcases List.mem_append.mp hc with h1 | h1
      · exact hgap c h1
      · simp only [List.mem_singleton] at h1
        subst h1
        simpa [createChunk] using hgapcur
    · simp [List.chain'_singleton]
    · rw [List.chain'_append]
      refine ⟨hbound, List.chain'_singleton _, ?_⟩
      intro x hx y hy
      simp only [List.head?_cons, Option.mem_def, Option.some.injEq] at hy
      subst hy
      exact hboundcur hcne x hx
    · intro _
      intro c hc
      rw [List.getLast?_concat] at hc
      simp only [Option.mem_def, Option.some.injEq] at hc
      subst hc
      intro a ha b hb
      simp only [createChunk, List.head?_cons, Option.mem_def, Option.some.injEq] at hb
      subst hb
      simp only [createChunk, Option.mem_def] at ha
      rw [ha, hchars] at hss
      rcases (shouldStartNewChunk_some_iff m a s.cur.length
        (getMessagesCharCount s.cur) (getMessageCharCount m) options).mp hss with h1 | h1 | h1
      · exact Or.inl h1
      · exact Or.inr (Or.inl h1)
      · exact Or.inr (Or.inr h1)
  · next hnsplit =>
    have hcase : shouldStartNewChunk m s.cur.getLast? s.cur.length s.curChars
        (getMessageCharCount m) options = false ∨ s.cur = [] := by
      by_cases hb : shouldStartNewChunk m s.cur.getLast? s.cur.length s.curChars
          (getMessageCharCount m) options = true
      · right
        by_contra hc
        exact hnsplit ⟨hb, hc⟩
      · left
        exact Bool.eq_false_iff.mpr hb
    refine ⟨?_, ?_, hne, hgap, ?_, hbound, ?_⟩
    · rw [hchars, getMessagesCharCount_append]
      simp [getMessagesCharCount]
    · intro habs
      exact absurd habs (by simp)
    · rw [List.chain'_append]
      refine ⟨hgapcur, List.chain'_singleton _, ?_⟩
      intro a ha b hb
      simp only [List.head?_cons, Option.mem_def, Option.some.injEq] at hb
      subst hb
      have hcne : s.cur ≠ [] := by
        intro habs
        rw [habs] at ha
        simp at ha
      rcases hcase with hfalse | hnil
      · rw [Option.mem_def.mp ha] at hfalse
        have := (not_congr (shouldStartNewChunk_some_iff m a s.cur.length s.curChars
          (getMessageCharCount m) options)).mp (by simp [hfalse])
        push_neg at this
        exact this.2.2
      · exact absurd hnil hcne
    · intro _
      intro c hc
      intro a ha b hb
      have hcne : s.cur ≠ [] := by
        intro habs
        rw [hempty habs] at hc
        simp at hc
      have hhead : (s.cur ++ [m]).head? = s.cur.head? := by
        obtain ⟨x, xs, hx⟩ := List.exists_cons_of_ne_nil hcne
        rw [hx]
        simp
      simp only [createChunk] at hb
      rw [hhead] at hb
      exact hboundcur hcne c hc a ha b hb

theorem greedy_foldl_inv (options : ChunkerOptions) (msgs : List ParsedMessage) :
    ∀ s : GreedyState, GreedyInv options s →
      GreedyInv options (msgs.foldl (greedyStep options) s) := by
  induction msgs with
  | nil => intro s hs; exact hs
  | cons m rest ih =>
    intro s hs
    exact ih _ (greedyStep_inv options s m hs)

theorem greedyPartition_inv (options : ChunkerOptions) (msgs : List ParsedMessage) :
    (∀ c ∈ greedyPartition options msgs, c.messages ≠ []) ∧
    (∀ c ∈ greedyPartition options msgs,
      List.Chain' (gapLt options.gapMinutes) c.messages) ∧
    List.Chain' (boundaryJustified options) (greedyPartition options msgs) := by
  have h0 : GreedyInv options ⟨[], [], 0⟩ := by
    refine ⟨by simp [getMessagesCharCount], fun _ => rfl, ?_, ?_, ?_, ?_, ?_⟩
    · intro c hc; simp at hc
    · intro c hc; simp at hc
    · exact List.chain'_nil
    · exact List.chain'_nil
    · intro habs; exact absurd rfl habs
  obtain ⟨hchars, hempty, hne, hgap, hgapcur, hbound, hboundcur⟩ :=
    greedy_foldl_inv options msgs ⟨[], [], 0⟩ h0
  unfold greedyPartition
  dsimp only
  split
  · next hcur => exact ⟨hne, hgap, hbound⟩
  · next hcur =>
    refine ⟨?_, ?_, ?_⟩
    · intro c hc
      rcases List.mem_append.mp hc with h1 | h1
      · exact hne c h1
      · simp only [List.mem_singleton] at h1
        subst h1
        simpa [createChunk] using hcur
    · intro c hc
      rcases List.mem_append.mp hc with h1 | h1
      · exact hgap c h1
      · simp only [List.mem_singleton] at h1
        subst h1
        exact hgapcur
    · rw [List.chain'_append]
      refine ⟨hbound, List.chain'_singleton _, ?_⟩
      intro x hx y hy
      simp only [List.head?_cons, Option.mem_def, Option.some.injEq] at hy
      subst hy
      exact hboundcur hcur x hx

theorem infix_append_left {l l1 : List ParsedMessage} (l2 : List ParsedMessage)
    (h : l <:+: l1) : l <:+: l1 ++ l2 :=
  h.trans (List.prefix_append l1 l2).isInfix

theorem infix_append_right {l l2 : List ParsedMessage} (l1 : List ParsedMessage)
    (h : l <:+: l2) : l <:+: l1 ++ l2 :=
  h.trans (List.suffix_append l1 l2).isInfix

theorem mergeStep_cover (minMessages maxChunkChars : Nat) (done : List Chunk)
    (s : MergeState) (c : Chunk) (h : MergeCover done s) :
    MergeCover (done ++ [c]) (mergeStep minMessages maxChunkChars s c) := by
  intro d hd
  unfold mergeStep
  dsimp only
  rcases List.mem_append.mp hd with hdone | hc
  · split
    · split
      · split
        · rcases h d hdone with ⟨r, hr, hinf⟩ | hinf
          · exact Or.inl ⟨r, List.mem_append_left _ hr, hinf⟩
          · exact Or.inl ⟨createChunk (s.pending ++ c.messages), by simp,
              infix_append_left _ hinf⟩
        · rcases h d hdone with ⟨r, hr, hinf⟩ | hinf
          · exact Or.inl ⟨r, List.mem_append_left _ hr, hinf⟩
          · exact Or.inl ⟨createChunk s.pending, by simp [createChunk], hinf⟩
      · next hpe =>
        rcases h d hdone with ⟨r, hr, hinf⟩ | hinf
        · exact Or.inl ⟨r, List.mem_append_left _ hr, hinf⟩
        · rw [not_not.mp hpe] at hinf
          exact Or.inr hinf
    · split
      · split
        · rcases h d hdone with ⟨r, hr, hinf⟩ | hinf
          · exact Or.inl ⟨r, by simp [List.mem_append_left, hr], hinf⟩
          · exact Or.inl ⟨createChunk s.pending, by simp, hinf⟩
        · rcases h d hdone with ⟨r, hr, hinf⟩ | hinf
          · exact Or.inl ⟨r, List.mem_append_left _ hr, hinf⟩
          · exact Or.inl ⟨createChunk s.pending, by simp, hinf⟩
      · split
        · rcases h d hdone with ⟨r, hr, hinf⟩ | hinf
          · exact Or.inl ⟨r, List.mem_append_left _ hr, hinf⟩
          · exact Or.inl ⟨createChunk (s.pending ++ c.messages), by simp,
              infix_append_left _ hinf⟩
        · rcases h d hdone with ⟨r, hr, hinf⟩ | hinf
          · exact Or.inl ⟨r, hr, hinf⟩
          · exact Or.inr (infix_append_left _ hinf)
  · simp only [List.mem_singleton] at hc
    subst hc
    split
    · split
      · split
        · exact Or.inl ⟨createChunk (s.pending ++ d.messages), by simp,
            infix_append_right _ (List.infix_refl _)⟩
        · exact Or.inl ⟨d, by simp, List.infix_refl _⟩
      · exact Or.inl ⟨d, by simp, List.infix_refl _⟩
    · split
      · split
        · exact Or.inl ⟨createChunk ([] ++ d.messages), by simp,
            infix_append_right _ (List.infix_refl _)⟩
        · exact Or.inr (infix_append_right _ (List.infix_refl _))
      · split
        · exact Or.inl ⟨createChunk (s.pending ++ d.messages), by simp,
            infix_append_right _ (List.infix_refl _)⟩
        · exact Or.inr (infix_append_right _ (List.infix_refl _))

theorem merge_foldl_cover (minMessages maxChunkChars : Nat) (cs : List Chunk) :
    ∀ done : List Chunk, ∀ s : MergeState, MergeCover done s →
      MergeCover (done ++ cs) (cs.foldl (mergeStep minMessages maxChunkChars) s) := by
  induction cs with
  | nil => intro done s h; simpa using h
  | cons c rest ih =>
    intro done s h
    have h1 := mergeStep_cover minMessages maxChunkChars done s c h
    have h2 := ih (done ++ [c]) _ h1
    simpa using h2

theorem mergeFinal_cover (maxChunkChars : Nat) (done : List Chunk) (s : MergeState)
    (h : MergeCover done s) (hne : ∀ c ∈ done, c.messages ≠ []) :
    ∀ c ∈ done, ∃ d ∈ mergeFinal maxChunkChars s, c.messages <:+: d.messages := by
  intro c hc
  unfold mergeFinal
  split
  · next hp =>
    rcases h c hc with ⟨r, hr, hinf⟩ | hinf
    · exact ⟨r, hr, hinf⟩
    · rw [hp] at hinf
      exact absurd (List.eq_nil_of_infix_nil hinf) (hne c hc)
  · next hp =>
    split
    · next hnone =>
      have hres : s.result = [] := by
        cases hr : s.result with
        | nil => rfl
        | cons a l => rw [hr] at hnone; simp [List.getLast?_concat] at hnone
      rcases h c hc with ⟨r, hr, _⟩ | hinf
      · rw [hres] at hr; simp at hr
      · exact ⟨createChunk s.pending, by simp, hinf⟩
    · next lastChunk hlast =>
      have hres : s.result ≠ [] := by
        intro habs
        rw [habs] at hlast
        simp at hlast
      have hdecomp : s.result.dropLast ++ [lastChunk] = s.result := by
        have h1 := List.getLast?_eq_getLast s.result hres
        rw [hlast] at h1
        have h2 : lastChunk = s.result.getLast hres := Option.some.inj h1
        rw [h2]
        exact List.dropLast_append_getLast hres
      dsimp only
      split
      · rcases h c hc with ⟨r, hr, hinf⟩ | hinf
        · rw [← hdecomp] at hr
          rcases List.mem_append.mp hr with h1 | h1
          · exact ⟨r, List.mem_append_left _ h1, hinf⟩
          · simp only [List.mem_singleton] at h1
            rw [h1] at hinf
            exact ⟨createChunk (lastChunk.messages ++ s.pending), by simp,
              infix_append_left _ hinf⟩
        · exact ⟨createChunk (lastChunk.messages ++ s.pending), by simp,
            infix_append_right _ hinf⟩
      · rcases h c hc with ⟨r, hr, hinf⟩ | hinf
        · rw [← hdecomp] at hr
          rcases List.mem_append.mp hr with h1 | h1
          · exact ⟨r, List.mem_append_left _ h1, hinf⟩
          · simp only [List.mem_singleton] at h1
            rw [h1] at hinf
            exact ⟨lastChunk, by simp, hinf⟩
        · exact ⟨createChunk s.pending, by simp, hinf⟩

theorem mergeSmallChunks_cover (cs : List Chunk) (minMessages maxChunkChars : Nat)
    (hne : ∀ c ∈ cs, c.messages ≠ []) :
    ∀ c ∈ cs, ∃ d ∈ mergeSmallChunks cs minMessages maxChunkChars,
      c.messages <:+: d.messages := by
  unfold mergeSmallChunks
  split
  · exact fun c hc => ⟨c, hc, List.infix_refl _⟩
  · have h0 : MergeCover [] ⟨[], [], 0⟩ := by intro c hc; simp at hc
    have h1 := merge_foldl_cover minMessages maxChunkChars cs [] _ h0
    simp only [List.nil_append] at h1
    exact mergeFinal_cover maxChunkChars cs _ h1 hne

/-- C3 (amended): the gap rule holds at the greedy-partition stage, and
the merge pass never separates messages that share a greedy chunk.
Concretely, for every input and options: (1) inside any chunk of the
greedy partition, adjacent messages are separated by less than
`gapMinutes` — so adjacent messages at or above the gap threshold land
in different greedy chunks; (2) every boundary between consecutive
greedy chunks is justified by the character budget, the message cap, or
the gap threshold — so adjacent messages under the gap threshold with
room under `maxMessages` and `maxChunkChars` share a greedy chunk; and
(3) each greedy chunk survives contiguously inside one chunk of
`chunkMessages`' final output — so messages sharing a greedy chunk share
a final chunk.  (The original claim, that gap-separated messages end in
different chunks of the final output, fails: the merge pass can join
them, see the counterexample.) -/
theorem chunker_gap_rule (messages : List ParsedMessage) (options : ChunkerOptions) :
    (∀ c ∈ greedyPartition options (sortByTimestamp messages),
        List.Chain' (gapLt options.gapMinutes) c.messages) ∧
    List.Chain' (boundaryJustified options)
      (greedyPartition options (sortByTimestamp messages)) ∧
    (∀ c ∈ greedyPartition options (sortByTimestamp messages),
        ∃ d ∈ chunkMessages messages options, c.messages <:+: d.messages) := by
  obtain ⟨hne, hgap, hbound⟩ := greedyPartition_inv options (sortByTimestamp messages)
  refine ⟨hgap, hbound, ?_⟩
  intro c hc
  unfold chunkMessages
  split
  · next hlen =>
    have : messages = [] := List.length_eq_zero.mp hlen
    subst this
    simp only [sortByTimestamp, List.insertionSort] at hc
    have : greedyPartition options [] = [] := by
      unfold greedyPartition
      simp
    rw [this] at hc
    simp at hc
  · exact mergeSmallChunks_cover _ options.minMessages options.maxChunkChars hne c hc

/-- C3 counterexample to the original claim: two adjacent messages two
hours apart (far above the default `gapMinutes = 30`), with no size
constraint triggered, end up in the same chunk of `chunkMessages`' final
output, because the merge pass rejoins the two undersized greedy chunks. -/
theorem chunker_gap_rule_counterexample :
    (chunkMessages gapMessages {}).map Chunk.messages = [gapMessages] ∧
    gapMessages.length = 2 ∧
    (gapMessages.get ⟨1, by decide⟩).ts - (gapMessages.get ⟨0, by decide⟩).ts =
      120 * 60000 ∧
    (({} : ChunkerOptions)).gapMinutes = 30 := by
  decide

/-!
Lemmas on the retriever's fusion map.
-/

theorem entryKeys_append (m n : List FusedEntry) :
    entryKeys (m ++ n) = entryKeys m ++ entryKeys n := by
  simp [entryKeys]

theorem mapSet_fresh (m : List FusedEntry) (e : FusedEntry)
    (h : e.chunk.id ∉ entryKeys m) : mapSet m e = m ++ [e] := by
  unfold mapSet
  have : m.any (fun x => x.chunk.id = e.chunk.id) = false := by
    simp only [List.any_eq_false, decide_eq_true_eq]
    intro x hx habs
    exact h (habs ▸ List.mem_map_of_mem (fun e => e.chunk.id) hx)
  simp [this]

theorem mapSet_keys_nodup (m : List FusedEntry) (e : FusedEntry)
    (h : (entryKeys m).Nodup) : (entryKeys (mapSet m e)).Nodup := by
  unfold mapSet
  split
  · have heq : entryKeys (m.map fun x => if x.chunk.id = e.chunk.id then e else x) =
        entryKeys m := by
      unfold entryKeys
      rw [List.map_map]
      apply List.map_congr_left
      intro x _
      by_cases hxe : x.chunk.id = e.chunk.id
      · simp [hxe]
      · simp [hxe]
    rw [heq]
    exact h
  · next hany =>
    rw [entryKeys_append]
    simp only [List.any_eq_true, decide_eq_true_eq, not_exists, not_and] at hany
    simp only [entryKeys, List.map_cons, List.map_nil]
    rw [List.nodup_append]
    refine ⟨h, List.nodup_singleton _, ?_⟩
    intro k hk
    simp only [List.mem_singleton]
    rcases List.mem_map.mp hk with ⟨x, hx, hxk⟩
    intro habs
    exact hany x hx (by rw [← hxk] at habs; exact habs)

theorem addVectorResults_eq (keywords : List Str) (results : List VectorHit) :
    ∀ m : List FusedEntry,
      (∀ r ∈ results, r.chunk.id ∉ entryKeys m) →
      ((results.map fun r => r.chunk.id).Nodup) →
      addVectorResults keywords m results = m ++ results.map (vectorEntry keywords) := by
  induction results with
  | nil => intro m _ _; simp [addVectorResults]
  | cons r rest ih =>
    intro m hdisj hnd
    unfold addVectorResults
    simp only [List.foldl_cons]
    have hfresh : (vectorEntry keywords r).chunk.id ∉ entryKeys m :=
      hdisj r (List.mem_cons_self r rest)
    rw [mapSet_fresh m _ hfresh]
    simp only [List.map_cons, List.nodup_cons] at hnd
    have hdisj2 : ∀ x ∈ rest, x.chunk.id ∉ entryKeys (m ++ [vectorEntry keywords r]) := by
      intro x hx
      rw [entryKeys_append]
      simp only [List.mem_append, not_or]
      refine ⟨hdisj x (List.mem_cons_of_mem r hx), ?_⟩
      simp only [entryKeys, List.map_cons, List.map_nil, List.mem_singleton, vectorEntry]
      intro habs
      exact hnd.1 (habs ▸ List.mem_map_of_mem (fun v => v.chunk.id) hx)
    have := ih (m ++ [vectorEntry keywords r]) hdisj2 hnd.2
    unfold addVectorResults at this
    rw [this]
    simp

theorem addVectorResults_keys_nodup (keywords : List Str) (results : List VectorHit) :
    ∀ m : List FusedEntry, (entryKeys m).Nodup →
      (entryKeys (addVectorResults keywords m results)).Nodup := by
  induction results with
  | nil => intro m hm; simpa [addVectorResults] using hm
  | cons r rest ih =>
    intro m hm
    unfold addVectorResults
    simp only [List.foldl_cons]
    have h1 := mapSet_keys_nodup m (vectorEntry keywords r) hm
    exact ih _ h1

theorem addKeywordResults_step (keywords : List Str) (m : List FusedEntry)
    (c : StoredChunk) :
    (if m.any (fun x => x.chunk.id = c.id) then m
     else mapSet m ⟨c, keywordOnlyScore c keywords, true⟩) = m ∨
    (if m.any (fun x => x.chunk.id = c.id) then m
     else mapSet m ⟨c, keywordOnlyScore c keywords, true⟩) =
      m ++ [⟨c, keywordOnlyScore c keywords, true⟩] := by
  split
  · exact Or.inl rfl
  · next hany =>
    right
    apply mapSet_fresh
    simp only [List.any_eq_true, decide_eq_true_eq, not_exists, not_and] at hany
    intro habs
    rcases List.mem_map.mp habs with ⟨x, hx, hxk⟩
    exact hany x hx hxk

theorem addKeywordResults_isPrefix (keywords : List Str) (cs : List StoredChunk) :
    ∀ m : List FusedEntry, m <+: addKeywordResults keywords m cs := by
  induction cs with
  | nil => intro m; simp [addKeywordResults]
  | cons c rest ih =>
    intro m
    unfold addKeywordResults
    simp only [List.foldl_cons]
    rcases addKeywordResults_step keywords m c with h | h
    · rw [h]
      have ihm := ih m
      unfold addKeywordResults at ihm
      exact ihm
    · rw [h]
      have ihm := ih (m ++ [⟨c, keywordOnlyScore c keywords, true⟩])
      unfold addKeywordResults at ihm
      exact (List.prefix_append m _).trans ihm

theorem addKeywordResults_keys_nodup (keywords : List Str) (cs : List StoredChunk) :
    ∀ m : List FusedEntry, (entryKeys m).Nodup →
      (entryKeys (addKeywordResults keywords m cs)).Nodup := by
  induction cs with
  | nil => intro m hm; simpa [addKeywordResults] using hm
  | cons c rest ih =>
    intro m hm
    unfold addKeywordResults
    simp only [List.foldl_cons]
    apply ih
    split
    · exact hm
    · exact mapSet_keys_nodup m _ hm

theorem keywordOnlyScore_bounds (c : StoredChunk) (keywords : List Str) :
    (6 : ℚ) / 10 ≤ keywordOnlyScore c keywords ∧ keywordOnlyScore c keywords ≤ 9 / 10 := by
  unfold keywordOnlyScore
  constructor
  · apply le_min
    · have h : (0 : ℚ) ≤ (1 : ℚ) / 10 * (keywordMatchCount c keywords : ℚ) := by positivity
      linarith
    · norm_num
  · exact min_le_right _ _

theorem addKeywordResults_mem (keywords : List Str) (cs : List StoredChunk) :
    ∀ m : List FusedEntry, ∀ e ∈ addKeywordResults keywords m cs,
      e ∈ m ∨ ((6 : ℚ) / 10 ≤ e.score ∧ e.score ≤ 9 / 10) := by
  induction cs with
  | nil => intro m e he; simp only [addKeywordResults, List.foldl_nil] at he; exact Or.inl he
  | cons c rest ih =>
    intro m e he
    unfold addKeywordResults at he
    simp only [List.foldl_cons] at he
    have ihe := ih _ e (by unfold addKeywordResults; exact he)
    rcases ihe with h1 | h1
    · rcases addKeywordResults_step keywords m c with h | h
      · rw [h] at h1; exact Or.inl h1
      · rw [h] at h1
        rcases List.mem_append.mp h1 with h2 | h2
        · exact Or.inl h2
        · simp only [List.mem_singleton] at h2
          subst h2
          exact Or.inr (keywordOnlyScore_bounds c keywords)
    · exact Or.inr h1

theorem addKeywordResults_covers (keywords : List Str) (cs : List StoredChunk) :
    ∀ m : List FusedEntry, ∀ c ∈ cs,
      c.id ∈ entryKeys (addKeywordResults keywords m cs) := by
  induction cs with
  | nil => intro m c hc; simp at hc
  | cons c0 rest ih =>
    intro m c hc
    unfold addKeywordResults
    simp only [List.foldl_cons]
    rcases List.mem_cons.mp hc with h | h
    · subst h
      -- after the first step the key is present, and keys are preserved by the fold
      have hkey : c.id ∈ entryKeys (if m.any (fun x => x.chunk.id = c.id) then m
          else mapSet m ⟨c, keywordOnlyScore c keywords, true⟩) := by
        split
        · next hany =>
          simp only [List.any_eq_true, decide_eq_true_eq] at hany
          rcases hany with ⟨x, hx, hxk⟩
          exact hxk ▸ List.mem_map_of_mem (fun e => e.chunk.id) hx
        · next hany =>
          rw [mapSet_fresh]
          · rw [entryKeys_append]
            simp [entryKeys]
          · simp only [List.any_eq_true, decide_eq_true_eq, not_exists, not_and] at hany
            intro habs
            rcases List.mem_map.mp habs with ⟨x, hx, hxk⟩
            exact hany x hx hxk
      have hpre := addKeywordResults_isPrefix keywords rest
        (if m.any (fun x => x.chunk.id = c.id) then m
         else mapSet m ⟨c, keywordOnlyScore c keywords, true⟩)
      unfold addKeywordResults at hpre
      rcases hpre with ⟨t, ht⟩
      rw [← ht, entryKeys_append]
      exact List.mem_append_left _ hkey
    · exact ih _ c h

theorem filterMap_guard_ids_sublist (allChunks : List StoredChunk) (keywords : List Str) :
    ((allChunks.filterMap (fun c =>
        let count := keywordMatchCount c keywords
        if 0 < count then some (c, count) else none)).map
      (fun p => p.1.id)).Sublist (allChunks.map (fun c => c.id)) := by
  induction allChunks with
  | nil => simp
  | cons c rest ih =>
    simp only [List.filterMap_cons, List.map_cons]
    split
    · exact ih.cons _
    · next b heq =>
      have hb : b = (c, keywordMatchCount c keywords) := by
        by_cases h0 : 0 < keywordMatchCount c keywords
        · rw [if_pos h0] at heq
          exact (Option.some.inj heq).symm
        · rw [if_neg h0] at heq
          cases heq
      subst hb
      simp only [List.map_cons]
      exact ih.cons₂ _

theorem keywordSearch_ids_nodup (allChunks : List StoredChunk) (keywords : List Str)
    (limit : Nat) (h : (allChunks.map (fun c => c.id)).Nodup) :
    ((keywordSearch allChunks keywords limit).map (fun c => c.id)).Nodup := by
  unfold keywordSearch
  dsimp only
  have h1 : ((allChunks.filterMap (fun c =>
      let count := keywordMatchCount c keywords
      if 0 < count then some (c, count) else none)).map (fun p => p.1.id)).Nodup :=
    (filterMap_guard_ids_sublist allChunks keywords).nodup h
  have hperm := List.perm_insertionSort
    (fun a b : StoredChunk × Nat => b.2 ≤ a.2)
    (allChunks.filterMap (fun c =>
      let count := keywordMatchCount c keywords
      if 0 < count then some (c, count) else none))
  have h2 := ((hperm.map (fun p => p.1.id)).nodup_iff).mpr h1
  have h3 := ((List.take_sublist limit _).map (fun p : StoredChunk × Nat => p.1.id)).nodup h2
  simpa [List.map_map, Function.comp] using h3

theorem keywordStage_ids_nodup (allChunks : List StoredChunk) (keywords : List Str)
    (h : (allChunks.map (fun c => c.id)).Nodup) :
    ((keywordStage allChunks keywords).map (fun c => c.id)).Nodup := by
  unfold keywordStage
  split
  · exact keywordSearch_ids_nodup allChunks keywords 10 h
  · simp

theorem addKeywordResults_step_keys (keywords : List Str) (m : List FusedEntry)
    (c : StoredChunk) :
    entryKeys (if m.any (fun x => x.chunk.id = c.id) then m
      else mapSet m ⟨c, keywordOnlyScore c keywords, true⟩) = entryKeys m ∨
    entryKeys (if m.any (fun x => x.chunk.id = c.id) then m
      else mapSet m ⟨c, keywordOnlyScore c keywords, true⟩) = entryKeys m ++ [c.id] := by
  rcases addKeywordResults_step keywords m c with h | h
  · rw [h]; exact Or.inl rfl
  · rw [h, entryKeys_append]
    exact Or.inr (by simp [entryKeys])

theorem addKeywordResults_exact (keywords : List Str) (cs : List StoredChunk)
    (hnd : (cs.map (fun c => c.id)).Nodup) :
    ∀ m : List FusedEntry, ∀ c ∈ cs, c.id ∉ entryKeys m →
      FusedEntry.mk c (keywordOnlyScore c keywords) true ∈
        addKeywordResults keywords m cs := by
  induction cs with
  | nil => intro m c hc; simp at hc
  | cons c0 rest ih =>
    intro m c hc hfresh
    unfold addKeywordResults
    simp only [List.foldl_cons]
    rcases List.mem_cons.mp hc with h | h
    · subst h
      have hany : m.any (fun x => x.chunk.id = c.id) = false := by
        simp only [List.any_eq_false, decide_eq_true_eq]
        intro x hx habs
        exact hfresh (habs ▸ List.mem_map_of_mem (fun e => e.chunk.id) hx)
      have hstep : (if m.any (fun x => x.chunk.id = c.id) then m
          else mapSet m ⟨c, keywordOnlyScore c keywords, true⟩) =
          m ++ [⟨c, keywordOnlyScore c keywords, true⟩] := by
        rw [hany]
        simp only [Bool.false_eq_true, if_false]
        apply mapSet_fresh
        exact hfresh
      rw [hstep]
      rcases addKeywordResults_isPrefix keywords rest
        (m ++ [⟨c, keywordOnlyScore c keywords, true⟩]) with ⟨t, ht⟩
      unfold addKeywordResults at ht
      rw [← ht]
      exact List.mem_append_left _ (List.mem_append_right _ (by simp))
    · simp only [List.map_cons, List.nodup_cons] at hnd
      have hne : c.id ≠ c0.id := by
        intro habs
        exact hnd.1 (habs ▸ List.mem_map_of_mem (fun x => x.id) h)
      have hfresh2 : c.id ∉ entryKeys (if m.any (fun x => x.chunk.id = c0.id) then m
          else mapSet m ⟨c0, keywordOnlyScore c0 keywords, true⟩) := by
        rcases addKeywordResults_step_keys keywords m c0 with hk | hk
        · rw [hk]; exact hfresh
        · rw [hk]
          simp only [List.mem_append, List.mem_singleton, not_or]
          exact ⟨hfresh, hne⟩
      have := ih hnd.2 (if m.any (fun x => x.chunk.id = c0.id) then m
        else mapSet m ⟨c0, keywordOnlyScore c0 keywords, true⟩) c h hfresh2
      unfold addKeywordResults at this
      exact this

theorem vectorEntry_score (keywords : List Str) (r : VectorHit) :
    (vectorEntry keywords r).score =
      min (r.score + min ((2 : ℚ) / 10 * (keywordMatchCount r.chunk keywords : ℚ))
        ((5 : ℚ) / 10)) 1 := by
  unfold vectorEntry
  dsimp only
  split
  · rfl
  · next hcount =>
    have h0 : keywordMatchCount r.chunk keywords = 0 := by omega
    rw [h0]
    norm_num

theorem vectorEntry_score_ge (keywords : List Str) (r : VectorHit) (h : r.score ≤ 1) :
    r.score ≤ (vectorEntry keywords r).score := by
  unfold vectorEntry
  dsimp only
  apply le_min _ h
  split
  · next hcount =>
    have : (0 : ℚ) ≤ (2 : ℚ) / 10 * (keywordMatchCount r.chunk keywords : ℚ) := by positivity
    have h5 : (0 : ℚ) ≤ (5 : ℚ) / 10 := by norm_num
    have := le_min this h5
    linarith [this]
  · linarith

theorem fusedUnion_keys_nodup (results : List VectorHit) (allChunks : List StoredChunk)
    (keywords : List Str) : (entryKeys (fusedUnion results allChunks keywords)).Nodup := by
  unfold fusedUnion
  apply addKeywordResults_keys_nodup
  apply addVectorResults_keys_nodup
  simp [entryKeys]

/-- C1: Retriever fusion postcondition.  With pairwise-distinct chunk ids
in the vector-search response and in the stored corpus (the vector store
keys points by chunk id): (1) every vector-stage hit (with score at most
1, the cosine-similarity range recorded in the data model) yields a fused
entry for its chunk id with score
`min(vectorScore + min(0.2 × keywordMatchCount, 0.5), 1.0)`, which is at
least its raw vector score; (2) a chunk found by the keyword stage whose
id is absent from the vector stage yields the fused entry with synthetic
score `min(0.6 + 0.1 × matchCount, 0.9)`, which lies in `[0.6, 0.9]`; the
fused union has pairwise-distinct chunk ids, so these entries are unique;
and (3) the result list `retrieve` returns carries no duplicate chunk
ids (this last part needs neither hypothesis). -/
theorem retrieve_fusion_postcondition (results : List VectorHit)
    (allChunks : List StoredChunk) (query : Str) (topK : Nat) (minScore : ℚ)
    (hnodup : (results.map fun r => r.chunk.id).Nodup)
    (hcorpus : (allChunks.map fun c => c.id).Nodup) :
    (∀ r ∈ results, r.score ≤ 1 →
      ∃ e ∈ fusedUnion results allChunks (extractKeywords query),
        e.chunk.id = r.chunk.id ∧
        e.score = min (r.score +
          min ((2 : ℚ) / 10 * (keywordMatchCount r.chunk (extractKeywords query) : ℚ))
            ((5 : ℚ) / 10)) 1 ∧
        r.score ≤ e.score) ∧
    (∀ c ∈ keywordStage allChunks (extractKeywords query),
      c.id ∉ results.map (fun r => r.chunk.id) →
      FusedEntry.mk c (keywordOnlyScore c (extractKeywords query)) true ∈
        fusedUnion results allChunks (extractKeywords query) ∧
      keywordOnlyScore c (extractKeywords query) =
        min ((6 : ℚ) / 10 +
          (1 : ℚ) / 10 * (keywordMatchCount c (extractKeywords query) : ℚ))
          ((9 : ℚ) / 10) ∧
      (6 : ℚ) / 10 ≤ keywordOnlyScore c (extractKeywords query) ∧
      keywordOnlyScore c (extractKeywords query) ≤ 9 / 10) ∧
    (entryKeys (fusedUnion results allChunks (extractKeywords query))).Nodup ∧
    ((retrieve results allChunks query topK minScore).map fun e => e.chunk.id).Nodup := by
  set keywords := extractKeywords query with hkw
  have hveq : addVectorResults keywords [] results =
      results.map (vectorEntry keywords) := by
    have := addVectorResults_eq keywords results [] (by intro r _ habs; simp [entryKeys] at habs)
      hnodup
    simpa using this
  refine ⟨?_, ?_, fusedUnion_keys_nodup results allChunks keywords, ?_⟩
  · intro r hr hscore
    refine ⟨vectorEntry keywords r, ?_, rfl, vectorEntry_score keywords r,
      vectorEntry_score_ge keywords r hscore⟩
    have hmem : vectorEntry keywords r ∈ addVectorResults keywords [] results := by
      rw [hveq]
      exact List.mem_map_of_mem (vectorEntry keywords) hr
    unfold fusedUnion
    rcases addKeywordResults_isPrefix keywords (keywordStage allChunks keywords)
      (addVectorResults keywords [] results) with ⟨t, ht⟩
    rw [← ht]
    exact List.mem_append_left _ hmem
  · intro c hc hnotin
    have hm1keys : entryKeys (addVectorResults keywords [] results) =
        results.map (fun r => r.chunk.id) := by
      rw [hveq]
      unfold entryKeys
      rw [List.map_map]
      rfl
    have hfresh : c.id ∉ entryKeys (addVectorResults keywords [] results) := by
      rw [hm1keys]
      exact hnotin
    refine ⟨?_, rfl, (keywordOnlyScore_bounds c keywords).1,
      (keywordOnlyScore_bounds c keywords).2⟩
    unfold fusedUnion
    exact addKeywordResults_exact keywords (keywordStage allChunks keywords)
      (keywordStage_ids_nodup allChunks keywords hcorpus) _ c hc hfresh
  · have hall := fusedUnion_keys_nodup results allChunks keywords
    unfold retrieve
    dsimp only
    rw [← hkw]
    have hperm : (List.insertionSort (fun a b : FusedEntry => b.score ≤ a.score)
        (fusedUnion results allChunks keywords)).Perm
        (fusedUnion results allChunks keywords) :=
      List.perm_insertionSort _ _
    have hall2 : ((fusedUnion results allChunks keywords).map (fun e => e.chunk.id)).Nodup :=
      hall
    have hsortnd : ((List.insertionSort (fun a b : FusedEntry => b.score ≤ a.score)
        (fusedUnion results allChunks keywords)).map (fun e => e.chunk.id)).Nodup :=
      ((hperm.map (fun e => e.chunk.id)).nodup_iff).mpr hall2
    have hsub : ((List.insertionSort (fun a b : FusedEntry => b.score ≤ a.score)
          (fusedUnion results allChunks keywords)).filter
            (fun r => decide (minScore ≤ r.score))).take topK |>.Sublist
        (List.insertionSort (fun a b : FusedEntry => b.score ≤ a.score)
          (fusedUnion results allChunks keywords)) :=
      (List.take_sublist _ _).trans (List.filter_sublist _)
    exact (hsub.map (fun e => e.chunk.id)).nodup hsortnd

/-- Witness for C1: the fusion postcondition instantiated at a
single-hit vector response over a two-chunk corpus. -/
theorem retrieve_fusion_witness :
    (([(⟨ballChunk, 1⟩ : VectorHit)].map fun r => r.chunk.id).Nodup) ∧
    (([otherChunk].map fun c => c.id).Nodup) ∧
    ∃ e ∈ fusedUnion [⟨ballChunk, 1⟩] [otherChunk] (extractKeywords "ball game".toList),
      e.chunk.id = ballChunk.id ∧
      e.score = min ((1 : ℚ) +
        min ((2 : ℚ) / 10 * (keywordMatchCount ballChunk (extractKeywords "ball game".toList) : ℚ))
          ((5 : ℚ) / 10)) 1 ∧
      (1 : ℚ) ≤ e.score :=
  ⟨by decide, by decide,
   (retrieve_fusion_postcondition [⟨ballChunk, 1⟩] [otherChunk] "ball game".toList 5
      (2 / 5) (by decide) (by decide)).1 ⟨ballChunk, 1⟩ (List.mem_singleton.mpr rfl)
      (le_refl 1)⟩

theorem buildLoop_spec (maxLength : Nat) :
    ∀ blocks : List Str, ∀ cur : Nat, cur ≤ maxLength →
      ∃ k ≤ blocks.length,
        cur + blocksLen (blocks.take k) ≤ maxLength ∧
        ((k = blocks.length ∧ buildLoop maxLength cur blocks = blocks.take k) ∨
         (∃ b rest, blocks.drop k = b :: rest ∧
           cur + blocksLen (blocks.take k) + b.length > maxLength ∧
           ((maxLength - (cur + blocksLen (blocks.take k)) > 200 ∧
              buildLoop maxLength cur blocks = blocks.take k ++
                [b.take (maxLength - (cur + blocksLen (blocks.take k))) ++ "...".toList]) ∨
            (maxLength - (cur + blocksLen (blocks.take k)) ≤ 200 ∧
              buildLoop maxLength cur blocks = blocks.take k)))) := by
  intro blocks
  induction blocks with
  | nil =>
    intro cur hcur
    exact ⟨0, by simp, by simpa [blocksLen] using hcur, Or.inl ⟨rfl, by simp [buildLoop]⟩⟩
  | cons b bs ih =>
    intro cur hcur
    by_cases hov : cur + b.length > maxLength
    · refine ⟨0, by simp, by simpa [blocksLen] using hcur, Or.inr ⟨b, bs, by simp, ?_, ?_⟩⟩
      · simpa [blocksLen] using hov
      · by_cases hrem : maxLength - cur > 200
        · left
          refine ⟨by simpa [blocksLen] using hrem, ?_⟩
          unfold buildLoop
          simp [hov, hrem, blocksLen]
        · right
          refine ⟨by simpa [blocksLen] using (not_lt.mp hrem), ?_⟩
          unfold buildLoop
          simp only [hov, if_pos]
          simp [not_lt.mp hrem, Nat.not_lt.mpr (not_lt.mp hrem)]
    · have hfits : cur + b.length ≤ maxLength := not_lt.mp hov
      obtain ⟨k, hk, hlen, hcase⟩ := ih (cur + b.length) hfits
      refine ⟨k + 1, by simpa using hk, ?_, ?_⟩
      · simpa [blocksLen, Nat.add_assoc] using hlen
      · have hloop : buildLoop maxLength cur (b :: bs) =
            b :: buildLoop maxLength (cur + b.length) bs := by
          conv_lhs => rw [buildLoop.eq_def]
          simp [hov]
        rcases hcase with ⟨hkeq, hres⟩ | ⟨bb, rest, hdrop, hovf, hinner⟩
        · left
          refine ⟨by simpa using hkeq, ?_⟩
          rw [hloop, hres]
          simp
        · right
          refine ⟨bb, rest, by simpa using hdrop, ?_, ?_⟩
          · simpa [blocksLen, Nat.add_assoc] using hovf
          · rcases hinner with ⟨hrem, hres⟩ | ⟨hrem, hres⟩
            · left
              constructor
              · simpa [blocksLen, Nat.add_assoc] using hrem
              · rw [hloop, hres]
                simp [blocksLen, Nat.add_assoc]
            · right
              constructor
              · simpa [blocksLen, Nat.add_assoc] using hrem
              · rw [hloop, hres]
                simp

/-- C5 (amended): the context-assembly truncation rule with a strict
threshold.  For every block list and budget there is a cut position `k`:
the first `k` blocks fit and are all appended; either no block overflows
(`k` covers the whole list), or the first overflowing block is truncated
to the remaining budget with an appended ellipsis exactly when strictly
more than 200 characters of budget remain, and is dropped entirely when
at most 200 remain; nothing after the overflowing block is appended.
The default budget is 8000 characters. -/
theorem buildContext_truncation_rule (blocks : List Str) (maxLength : Nat) :
    (∃ k ≤ blocks.length,
      blocksLen (blocks.take k) ≤ maxLength ∧
      ((k = blocks.length ∧ buildContextParts blocks maxLength = blocks.take k) ∨
       (∃ b rest, blocks.drop k = b :: rest ∧
         blocksLen (blocks.take k) + b.length > maxLength ∧
         ((maxLength - blocksLen (blocks.take k) > 200 ∧
            buildContextParts blocks maxLength = blocks.take k ++
              [b.take (maxLength - blocksLen (blocks.take k)) ++ "...".toList]) ∨
          (maxLength - blocksLen (blocks.take k) ≤ 200 ∧
            buildContextParts blocks maxLength = blocks.take k))))) ∧
    buildContextDefaultMaxLength = 8000 := by
  refine ⟨?_, rfl⟩
  obtain ⟨k, hk, hlen, hcase⟩ := buildLoop_spec maxLength blocks 0 (Nat.zero_le _)
  exact ⟨k, hk, by simpa using hlen, by simpa [buildContextParts] using hcase⟩

set_option maxRecDepth 8000 in
/-- C5 counterexample to the original claim: with a budget of 300 and
blocks of 100 and 250 characters, the second block overflows with
exactly 200 characters of budget remaining ("at least 200" holds), yet
`buildContext`'s loop drops it instead of truncating it — the code's
threshold is strictly greater than 200. -/
theorem buildContext_truncation_counterexample :
    buildContextParts [List.replicate 100 'a', List.replicate 250 'b'] 300 =
      [List.replicate 100 'a'] ∧
    100 + (List.replicate 250 'b').length > 300 ∧
    300 - 100 = 200 := by
  refine ⟨?_, by simp, rfl⟩
  decide

theorem digitChar_ne_newline (n : Nat) : digitChar n ≠ '\n' := by
  unfold digitChar
  split <;> decide

theorem natDigits_ne_newline (n : Nat) : ∀ c ∈ natDigits n, c ≠ '\n' := by
  induction n using Nat.strong_induction_on with
  | _ n ih =>
    rw [natDigits.eq_def]
    split
    · intro c hc
      simp only [List.mem_singleton] at hc
      subst hc
      exact digitChar_ne_newline n
    · next h =>
      intro c hc
      rcases List.mem_append.mp hc with h1 | h1
      · exact ih (n / 10) (Nat.div_lt_self (by omega) (by omega)) c h1
      · simp only [List.mem_singleton] at h1
        subst h1
        exact digitChar_ne_newline (n % 10)

theorem padNum_ne_newline (w n : Nat) : ∀ c ∈ padNum w n, c ≠ '\n' := by
  intro c hc
  unfold padNum at hc
  rcases List.mem_append.mp hc with h1 | h1
  · rw [List.eq_of_mem_replicate h1]
    decide
  · exact natDigits_ne_newline n c h1

theorem isoSlice16_ne_newline (ms : Int) : ∀ c ∈ isoSlice16 ms, c ≠ '\n' := by
  unfold isoSlice16
  dsimp only
  refine List.forall_mem_append.mpr ⟨?_, padNum_ne_newline _ _⟩
  refine List.forall_mem_append.mpr ⟨?_, by decide⟩
  refine List.forall_mem_append.mpr ⟨?_, padNum_ne_newline _ _⟩
  refine List.forall_mem_append.mpr ⟨?_, by decide⟩
  refine List.forall_mem_append.mpr ⟨?_, padNum_ne_newline _ _⟩
  refine List.forall_mem_append.mpr ⟨?_, by decide⟩
  refine List.forall_mem_append.mpr ⟨?_, padNum_ne_newline _ _⟩
  exact List.forall_mem_append.mpr ⟨padNum_ne_newline _ _, by decide⟩

theorem renderMessage_ne_newline (m : ParsedMessage)
    (hs : '\n' ∉ m.sender) (hc : '\n' ∉ m.content) : '\n' ∉ renderMessage m := by
  intro habs
  unfold renderMessage at habs
  have : ∀ c ∈ renderMessage m, c ≠ '\n' := by
    unfold renderMessage
    refine List.forall_mem_append.mpr ⟨?_, fun c hcc => by rintro rfl; exact hc hcc⟩
    refine List.forall_mem_append.mpr ⟨?_, by decide⟩
    refine List.forall_mem_append.mpr ⟨?_, fun c hcc => by rintro rfl; exact hs hcc⟩
    refine List.forall_mem_append.mpr ⟨?_, by decide⟩
    exact List.forall_mem_append.mpr ⟨by decide, isoSlice16_ne_newline m.ts⟩
  exact this '\n' (by unfold renderMessage; exact habs) rfl

/-- C4 (amended): `getChunkText` renders exactly the text and media
messages of the chunk (system and deleted messages are filtered out),
each as one `[YYYY-MM-DD HH:MM] sender: content` line, newline-joined:
splitting the rendering on newlines recovers the rendered lines of the
kept messages, each exactly once and in chunk order (stated for
single-line senders and contents, where the line structure is
unambiguous, and for a nonempty kept set). -/
theorem getChunkText_renders_kept_messages (c : Chunk)
    (hnl : ∀ m ∈ c.messages, '\n' ∉ m.sender ∧ '\n' ∉ m.content)
    (hne : c.messages.filter keepInChunkText ≠ []) :
    List.splitOn '\n' (getChunkText c) =
      (c.messages.filter keepInChunkText).map renderMessage := by
  unfold getChunkText
  apply List.splitOn_intercalate
  · intro l hl
    rcases List.mem_map.mp hl with ⟨m, hm, hlm⟩
    have hmem := List.mem_of_mem_filter hm
    rw [← hlm]
    exact renderMessage_ne_newline m (hnl m hmem).1 (hnl m hmem).2
  · simp only [ne_eq, List.map_eq_nil_iff]
    exact hne

/-- Witness for C4: a chunk of two single-line text messages. -/
theorem getChunkText_renders_witness :
    (∀ m ∈ (Chunk.mk gapMessages).messages, '\n' ∉ m.sender ∧ '\n' ∉ m.content) ∧
    List.splitOn '\n' (getChunkText (Chunk.mk gapMessages)) =
      ((Chunk.mk gapMessages).messages.filter keepInChunkText).map renderMessage :=
  ⟨by decide, getChunkText_renders_kept_messages (Chunk.mk gapMessages)
    (by decide) (by decide)⟩

/-- C4 counterexample to the original claim: on a chunk holding one
system message, `getChunkText` renders the empty string — the message
does not appear in the rendering at all — while the spec's unfiltered
rendering (`renderChunkSpec`, "each message as
`[YYYY-MM-DD HH:MM] sender: content`, newline-joined") renders it. -/
theorem getChunkText_counterexample :
    getChunkText (Chunk.mk [⟨0, [], "call missed".toList, .system, none, []⟩]) = [] ∧
    getChunkText (Chunk.mk [⟨0, [], "call missed".toList, .system, none, []⟩]) ≠
      renderChunkSpec (Chunk.mk [⟨0, [], "call missed".toList, .system, none, []⟩]) ∧
    (Chunk.mk [⟨0, [], "call missed".toList, .system, none, []⟩]).messages.length = 1 := by
  refine ⟨by decide, ?_, by decide⟩
  decide

/-- C7: two-digit year normalization and date validation.  A two-digit
year `y` becomes `2000 + y` when `y < 50` and `1900 + y` when `y ≥ 50`
(so `23 → 2023` and `68 → 1968`), and for every format a candidate date
parses successfully exactly when the calendar year of the constructed
`Date` (after component normalization) lies inside `[2009, 2100]` — a
year outside the range makes the line a non-match for that format. -/
theorem parser_year_normalization :
    (∀ y : Nat, y < 100 → normalizeYear y = if y < 50 then 2000 + y else 1900 + y) ∧
    normalizeYear 23 = 2023 ∧ normalizeYear 68 = 1968 ∧
    (∀ (format : DateFormat) (m : DateMatch),
      (parseDateFromMatch format m).isSome ↔
        (2009 ≤ msFullYear (candidateMs format m) ∧
         msFullYear (candidateMs format m) ≤ 2100)) := by
  refine ⟨?_, by decide, by decide, ?_⟩
  · intro y hy
    unfold normalizeYear
    rw [if_pos hy]
    split
    · next h => rw [if_neg (by omega)]
    · next h => rw [if_pos (by omega)]
  · intro format m
    unfold parseDateFromMatch
    dsimp only
    split
    · next h =>
      simp only [Option.isSome_none, Bool.false_eq_true, false_iff, not_and, not_le]
      intro h1
      omega
    · next h =>
      simp only [Option.isSome_some, true_iff]
      omega

/-- Witness for C7: the boundary values 23 and 68, and a concrete EU
match `15/01/05, 10:30` whose year 2005 falls outside the accepted range
and is rejected. -/
theorem parser_year_normalization_witness :
    (23 : Nat) < 100 ∧
    normalizeYear 23 = (if (23 : Nat) < 50 then 2000 + 23 else 1900 + 23) ∧
    (¬((parseDateFromMatch DateFormat.EU ⟨15, 1, 5, 10, 30, none, none, []⟩).isSome) ∧
      msFullYear (candidateMs DateFormat.EU ⟨15, 1, 5, 10, 30, none, none, []⟩) = 2005) :=
  ⟨by decide, parser_year_normalization.1 23 (by decide),
   by
     have h := (parser_year_normalization.2.2.2 DateFormat.EU
       ⟨15, 1, 5, 10, 30, none, none, []⟩)
     constructor
     · intro habs
       have := h.mp habs
       have h5 : msFullYear (candidateMs DateFormat.EU ⟨15, 1, 5, 10, 30, none, none, []⟩)
           = 2005 := by decide
       omega
     · decide⟩

/-- C8: Parser totality and stray-line semantics.  `parseWhatsAppExport`
is a total function of its input string and options (every matcher and
the classification are total by construction — the only translation of
"never raises").  A non-blank line matching no timestamp pattern is a
continuation: it is appended (with a newline) to the open message's
content and raw line when an accumulator is open, and the state — hence
the output — is unchanged (the line is silently dropped) when none is
open. -/
theorem parser_stray_line_behavior (o : ParserOptions) (st : ParseState) (line : Str)
    (hnb : trimStr line ≠ [])
    (hnm : parseMessageLine line st.detectedFormat = none) :
    parseStep o st line =
      (match st.cur with
       | some c => ParseState.mk st.messages st.participants
           (some (OpenMessage.mk c.ts c.sender (c.content ++ '\n' :: line)
             (c.rawLine ++ '\n' :: line))) st.detectedFormat
       | none => st) := by
  unfold parseStep
  rw [if_neg hnb, hnm]

/-- Witness for C8: a line with no timestamp is absorbed into the open
accumulator. -/
theorem parser_stray_line_witness :
    (trimStr "hello world".toList ≠ [] ∧
      parseMessageLine "hello world".toList
        (ParseState.mk [] [] (some ⟨0, ['a'], ['b'], ['c']⟩) none).detectedFormat = none) ∧
    parseStep {} (ParseState.mk [] [] (some ⟨0, ['a'], ['b'], ['c']⟩) none)
        "hello world".toList =
      ParseState.mk [] []
        (some (OpenMessage.mk 0 ['a'] (['b'] ++ '\n' :: "hello world".toList)
          (['c'] ++ '\n' :: "hello world".toList))) none :=
  ⟨⟨by decide, by decide⟩,
   parser_stray_line_behavior {} (ParseState.mk [] [] (some ⟨0, ['a'], ['b'], ['c']⟩) none)
     "hello world".toList (by decide) (by decide)⟩

theorem agentLoop_le (responses : Nat → ParsedResponse) (execTool : Str → Str → Str) :
    ∀ fuel iterations st, MAX_ITERATIONS - iterations = fuel →
      iterations ≤ MAX_ITERATIONS →
      iterations ≤ (agentLoop responses execTool iterations st).1 ∧
      (agentLoop responses execTool iterations st).1 ≤ MAX_ITERATIONS := by
  intro fuel
  induction fuel with
  | zero =>
    intro iterations st hfuel hle
    have : ¬iterations < MAX_ITERATIONS := by omega
    rw [agentLoop.eq_def, if_neg this]
    omega
  | succ n ih =>
    intro iterations st hfuel hle
    rw [agentLoop.eq_def]
    split
    · next hlt =>
      dsimp only
      split
      · simp only
        omega
      · split
        · obtain ⟨h1, h2⟩ := ih (iterations + 1)
            (AgentLoopState.mk (st.steps ++
              [AgentStep.mk ((responses iterations).thought.getD [])
                (responses iterations).action (responses iterations).actionInput
                (execTool ((responses iterations).action.getD [])
                  ((responses iterations).actionInput.getD []))]) st.finalAnswer)
            (by omega) (by omega)
          exact ⟨by omega, h2⟩
        · obtain ⟨h1, h2⟩ := ih (iterations + 1) st (by omega) (by omega)
          exact ⟨by omega, h2⟩
    · omega

theorem agentLoop_exhaust (responses : Nat → ParsedResponse) (execTool : Str → Str → Str)
    (hnf : ∀ i, i < MAX_ITERATIONS → truthyStr (responses i).finalAnswer = false) :
    ∀ fuel iterations st, MAX_ITERATIONS - iterations = fuel →
      iterations ≤ MAX_ITERATIONS →
      (agentLoop responses execTool iterations st).1 = MAX_ITERATIONS ∧
      (agentLoop responses execTool iterations st).2.finalAnswer = st.finalAnswer := by
  intro fuel
  induction fuel with
  | zero =>
    intro iterations st hfuel hle
    have : ¬iterations < MAX_ITERATIONS := by omega
    rw [agentLoop.eq_def, if_neg this]
    exact ⟨by omega, rfl⟩
  | succ n ih =>
    intro iterations st hfuel hle
    rw [agentLoop.eq_def]
    split
    · next hlt =>
      dsimp only
      rw [hnf iterations hlt]
      simp only [Bool.false_eq_true, if_false]
      split
      · exact ih (iterations + 1)
          (AgentLoopState.mk (st.steps ++
            [AgentStep.mk ((responses iterations).thought.getD [])
              (responses iterations).action (responses iterations).actionInput
              (execTool ((responses iterations).action.getD [])
                ((responses iterations).actionInput.getD []))]) st.finalAnswer)
          (by omega) (by omega)
      · exact ih (iterations + 1) st (by omega) (by omega)
    · next hlt => omega

/-- C6: Agent iteration bound.  For every question (the parsed completion
sequence) and every tool behavior, `ReActAgent.run` makes at most
`MAX_ITERATIONS = 5` generation calls inside the think/act loop; and when
none of the first 5 completions carries a (truthy) `Final Answer`, the
loop stops after exactly its 5th generation and the answer comes from the
separate exhaustion-synthesis path — never from a 6th loop generation. -/
theorem agent_iteration_bound (responses : Nat → ParsedResponse)
    (execTool : Str → Str → Str) (synth : List AgentStep → Str) :
    (agentRun responses execTool synth).loopGenerations ≤ MAX_ITERATIONS ∧
    MAX_ITERATIONS = 5 ∧
    ((∀ i, i < MAX_ITERATIONS → truthyStr (responses i).finalAnswer = false) →
      (agentRun responses execTool synth).loopGenerations = 5 ∧
      (agentRun responses execTool synth).answer =
        synth (agentRun responses execTool synth).steps) := by
  refine ⟨?_, rfl, ?_⟩
  · unfold agentRun
    dsimp only
    exact (agentLoop_le responses execTool (MAX_ITERATIONS - 0) 0 ⟨[], []⟩ rfl
      (by omega)).2
  · intro hnf
    have h := agentLoop_exhaust responses execTool hnf (MAX_ITERATIONS - 0) 0 ⟨[], []⟩
      rfl (by omega)
    unfold agentRun
    dsimp only
    rw [h.2]
    exact ⟨h.1, by simp⟩

/-- Witness for C6: a completion sequence that never produces a final
answer reaches exactly 5 loop generations and exits through the
synthesis path. -/
theorem agent_iteration_bound_witness :
    (agentRun (fun _ => {}) (fun _ _ => []) (fun _ => "none found".toList)).loopGenerations
        = 5 ∧
    (agentRun (fun _ => {}) (fun _ _ => []) (fun _ => "none found".toList)).answer =
      "none found".toList :=
  ⟨((agent_iteration_bound (fun _ => {}) (fun _ _ => [])
      (fun _ => "none found".toList)).2.2 (fun _ _ => rfl)).1,
   ((agent_iteration_bound (fun _ => {}) (fun _ _ => [])
      (fun _ => "none found".toList)).2.2 (fun _ _ => rfl)).2⟩

/-- C9: Pipeline failure semantics.  For every environment and options:
(1) whenever `ingest` rethrows an error `e` to its caller, the job's
progress record ends with status `failed`, the captured error message
`e`, and a completion timestamp; (2) a parse failure is propagated
(rethrown) with the same message; (3) with a successful parse and a
successful embedding stage, an upsert failure is propagated with the
same message.  The job is run once — the embedding of `ingest` consults
each stage outcome a single time, so no retry exists. -/
theorem pipeline_failure_semantics (env : IngestEnv) (opts : IngestionOptions) :
    (∀ e, (ingest env opts).1 = Except.error e →
      (ingest env opts).2.status = IngestionStatus.failed ∧
      (ingest env opts).2.error = some e ∧
      (ingest env opts).2.completedAt = some env.finishTime) ∧
    (∀ e, env.parseResult = Except.error e → (ingest env opts).1 = Except.error e) ∧
    (∀ e messages, env.parseResult = Except.ok messages →
      (∀ p, (embedStage env opts (chunkMessages messages (pipelineChunkerOptions opts)) p).1
        = Except.ok ()) →
      env.upsertResult = Except.error e → (ingest env opts).1 = Except.error e) := by
  refine ⟨?_, ?_, ?_⟩
  · intro e
    unfold ingest
    dsimp only
    cases hp : env.parseResult with
    | error e0 =>
      dsimp only
      intro he
      injection he with he
      subst he
      simp [failProgress]
    | ok messages =>
      dsimp only
      intro he
      split at he
      · dsimp only at he
        injection he with he
        subst he
        simp [failProgress]
      · cases hu : env.upsertResult with
        | error e0 =>
          rw [hu] at he
          dsimp only at he
          injection he with he
          subst he
          dsimp only
          simp [failProgress]
        | ok v =>
          rw [hu] at he
          dsimp only at he
          exact absurd he (by simp)
  · intro e hp
    unfold ingest
    dsimp only
    rw [hp]
  · intro e messages hp hemb hu
    unfold ingest
    dsimp only
    rw [hp]
    dsimp only
    split
    · next e0 p6 heq =>
      have h2 := (congrArg Prod.fst heq).symm.trans (hemb _)
      dsimp only at h2
      exact absurd h2 (by simp)
    · next a p6 heq =>
      rw [hu]

/-- Witness for C9: an environment whose file parse throws `"boom"`. -/
theorem pipeline_failure_witness :
    (ingest failingParseEnv {}).1 = Except.error "boom".toList ∧
    (ingest failingParseEnv {}).2.status = IngestionStatus.failed ∧
    (ingest failingParseEnv {}).2.error = some "boom".toList ∧
    (ingest failingParseEnv {}).2.completedAt = some failingParseEnv.finishTime :=
  ⟨(pipeline_failure_semantics failingParseEnv {}).2.1 "boom".toList rfl,
   (pipeline_failure_semantics failingParseEnv {}).1 "boom".toList
     ((pipeline_failure_semantics failingParseEnv {}).2.1 "boom".toList rfl)⟩

end RagWhatsApp
